import Mathlib

/-!
Verification development for the JSON schema-inference engine of
`scripts/what_is_the_schema.py` (class `JSONSchemaAnalyzer`).

The Python code is shallowly embedded: JSON values become an inductive type,
the analyzer's mutable `schema_structure` dict becomes an explicitly threaded
insertion-ordered association list, and `datetime.strptime`-based date
detection is modelled by executable parsers that follow CPython's
`_strptime` regexes (ordered alternation with backtracking, then a
full-consumption check and calendar validation on the first regex match).
Python's `re` module treats `\s` and `\d` as Unicode classes; the model
restricts them to their ASCII parts, which is the only fragment the
analyzed documents (and the spec) exercise.
-/

namespace Schema

/-- A parsed JSON-like Python value as seen by the analyzer.  The constructor
`other` stands for a non-JSON Python value (its payloads are the runtime type
name and the `str(...)` rendering), capturing the classifier's fallback
branch.  Python floats are carried by their `str(...)` rendering, which is all
the analyzer ever looks at. -/
inductive JVal where
  | null : JVal
  | bool (b : Bool) : JVal
  | int (n : Int) : JVal
  | float (rep : String) : JVal
  | str (s : String) : JVal
  | arr (xs : List JVal) : JVal
  | obj (fs : List (String × JVal)) : JVal
  | other (tyName : String) (rep : String) : JVal
deriving Repr

/-- Embedding of `JSONSchemaAnalyzer._get_type_name`.  In Python the
`isinstance(value, bool)` test precedes `isinstance(value, int)`; the
inductive embedding keeps booleans and integers in disjoint constructors,
so the classification below is exactly the function computed by that
check order. -/
def typeName : JVal → String
  | .null => "null"
  | .bool _ => "boolean"
  | .int _ => "integer"
  | .float _ => "float"
  | .str _ => "string"
  | .arr _ => "array"
  | .obj _ => "object"
  | .other t _ => t

/-- Python `str(value)` for the values the walker samples (scalars only;
composites are never sampled by `_analyze_value`). -/
def pyStr : JVal → String
  | .null => "None"
  | .bool b => if b then "True" else "False"
  | .int n => toString n
  | .float rep => rep
  | .str s => s
  | .arr _ => "<array>"
  | .obj _ => "<object>"
  | .other _ rep => rep

/-- `value` is a Python `dict` or `list`. -/
def isComposite : JVal → Bool
  | .arr _ => true
  | .obj _ => true
  | _ => false

/-! ### Date-pattern detection (`_detect_date_pattern`)

`datetime.strptime(key, fmt)` compiles `fmt` into a regex (CPython's
`_strptime.TimeRE`), takes that regex's first match (ordered alternation
with backtracking), raises `ValueError` when there is no match, when the
match does not consume the whole string, or when the captured fields do not
form a calendar date, and otherwise succeeds.  Each `match…` function below
returns the captures and the unconsumed remainder of the regex engine's
first match for one format; `okMatch` then applies the full-consumption
check and the calendar validation to that single match. -/

/-- Numeric value of a decimal digit character. -/
def dv (c : Char) : Nat := c.toNat - 48

/-- Python regex `\s` (ASCII part). -/
def isWs (c : Char) : Bool :=
  c = ' ' || c = '\t' || c = '\n' || c = '\r' || c = '\x0b' || c = '\x0c'

/-- First-success search over ordered regex alternatives. -/
def firstSome (l : List α) (f : α → Option β) : Option β :=
  match l with
  | [] => none
  | a :: rest =>
    match f a with
    | some b => some b
    | none => firstSome rest f

/-- `%Y`, regex `\d\d\d\d`: exactly four digits. -/
def yParse : List Char → Option (Nat × List Char)
  | a :: b :: c :: d :: rest =>
    if a.isDigit && b.isDigit && c.isDigit && d.isDigit then
      some (1000 * dv a + 100 * dv b + 10 * dv c + dv d, rest)
    else none
  | _ => none

/-- `%m`, regex `1[0-2]|0[1-9]|[1-9]`: the alternatives in regex order. -/
def mAlts (cs : List Char) : List (Nat × List Char) :=
  (match cs with
   | c1 :: c2 :: rest =>
     (if c1 = '1' && ('0' ≤ c2 && c2 ≤ '2') then [(10 + dv c2, rest)] else []) ++
     (if c1 = '0' && ('1' ≤ c2 && c2 ≤ '9') then [(dv c2, rest)] else [])
   | _ => []) ++
  (match cs with
   | c1 :: rest => if '1' ≤ c1 && c1 ≤ '9' then [(dv c1, rest)] else []
   | _ => [])

/-- `%d`, regex `3[01]|[12]\d|0[1-9]|[1-9]`: the alternatives in regex order. -/
def dAlts (cs : List Char) : List (Nat × List Char) :=
  (match cs with
   | c1 :: c2 :: rest =>
     (if c1 = '3' && ('0' ≤ c2 && c2 ≤ '1') then [(30 + dv c2, rest)] else []) ++
     (if ('1' ≤ c1 && c1 ≤ '2') && c2.isDigit then [(10 * dv c1 + dv c2, rest)] else []) ++
     (if c1 = '0' && ('1' ≤ c2 && c2 ≤ '9') then [(dv c2, rest)] else [])
   | _ => []) ++
  (match cs with
   | c1 :: rest => if '1' ≤ c1 && c1 ≤ '9' then [(dv c1, rest)] else []
   | _ => [])

/-- Case-insensitive literal match of `pat` (given lowercase) against the
head of the input, returning the remainder. -/
def stripCI : List Char → List Char → Option (List Char)
  | [], cs => some cs
  | _ :: _, [] => none
  | p :: ps, c :: cs => if c.toLower = p then stripCI ps cs else none

/-- English month names with their numbers, longest first as in
`_strptime.__seqToRE` (the names are prefix-free, so order is immaterial). -/
def monthNames : List (Nat × List Char) :=
  [(9, "september".data), (2, "february".data), (11, "november".data),
   (12, "december".data), (1, "january".data), (10, "october".data),
   (8, "august".data), (4, "april".data), (3, "march".data),
   (7, "july".data), (6, "june".data), (5, "may".data)]

/-- `%B`: one full (English) month name, case-insensitively. -/
def bParse (cs : List Char) : Option (Nat × List Char) :=
  firstSome monthNames fun mn =>
    match stripCI mn.2 cs with
    | some rest => some (mn.1, rest)
    | none => none

/-- A literal whitespace in the format, regex `\s+`.  The `\s+` is greedy and
everything that can follow it in the ten formats starts with a non-blank, so
consuming the maximal run is the regex engine's behaviour. -/
def ws1 : List Char → Option (List Char)
  | c :: rest => if isWs c then some (rest.dropWhile isWs) else none
  | [] => none

/-- Captures of one format: year, month, day and the unconsumed remainder. -/
abbrev DMatch := Option (Nat × Nat × Nat × List Char)

/-- `%Y(sep)%m(sep)%d` — formats 1 (`-`) and 3 (`/`). -/
def matchYMDsep (sep : Char) (cs : List Char) : DMatch :=
  match yParse cs with
  | some (y, r1) =>
    match r1 with
    | c :: r2 =>
      if c = sep then
        firstSome (mAlts r2) fun mr =>
          match mr.2 with
          | c2 :: r4 =>
            if c2 = sep then
              firstSome (dAlts r4) fun dr => some (y, mr.1, dr.1, dr.2)
            else none
          | [] => none
      else none
    | [] => none
  | none => none

/-- `%d(sep)%m(sep)%Y` — formats 2 (`-`) and 4 (`/`). -/
def matchDMYsep (sep : Char) (cs : List Char) : DMatch :=
  firstSome (dAlts cs) fun dr =>
    match dr.2 with
    | c :: r2 =>
      if c = sep then
        firstSome (mAlts r2) fun mr =>
          match mr.2 with
          | c2 :: r4 =>
            if c2 = sep then
              match yParse r4 with
              | some (y, r5) => some (y, mr.1, dr.1, r5)
              | none => none
            else none
          | [] => none
      else none
    | [] => none

/-- `%Y%m%d` — format 5. -/
def matchYMDglued (cs : List Char) : DMatch :=
  match yParse cs with
  | some (y, r1) =>
    firstSome (mAlts r1) fun mr =>
      firstSome (dAlts mr.2) fun dr => some (y, mr.1, dr.1, dr.2)
  | none => none

/-- `%d%m%Y` — format 6. -/
def matchDMYglued (cs : List Char) : DMatch :=
  firstSome (dAlts cs) fun dr =>
    firstSome (mAlts dr.2) fun mr =>
      match yParse mr.2 with
      | some (y, r3) => some (y, mr.1, dr.1, r3)
      | none => none

/-- `%B %d, %Y` — format 7. -/
def matchBDY (cs : List Char) : DMatch :=
  match bParse cs with
  | some (m, r1) =>
    match ws1 r1 with
    | some r2 =>
      firstSome (dAlts r2) fun dr =>
        match dr.2 with
        | ',' :: r4 =>
          match ws1 r4 with
          | some r5 =>
            match yParse r5 with
            | some (y, r6) => some (y, m, dr.1, r6)
            | none => none
          | none => none
        | _ => none
    | none => none
  | none => none

/-- `%d %B %Y` — format 8. -/
def matchDBY (cs : List Char) : DMatch :=
  firstSome (dAlts cs) fun dr =>
    match ws1 dr.2 with
    | some r2 =>
      match bParse r2 with
      | some (m, r3) =>
        match ws1 r3 with
        | some r4 =>
          match yParse r4 with
          | some (y, r5) => some (y, m, dr.1, r5)
          | none => none
        | none => none
      | none => none
    | none => none

/-- `%Y-%m` — format 9 (the day defaults to 1). -/
def matchYM (cs : List Char) : DMatch :=
  match yParse cs with
  | some (y, r1) =>
    match r1 with
    | '-' :: r2 => firstSome (mAlts r2) fun mr => some (y, mr.1, 1, mr.2)
    | _ => none
  | none => none

/-- `%m-%Y` — format 10 (the day defaults to 1). -/
def matchMY (cs : List Char) : DMatch :=
  firstSome (mAlts cs) fun mr =>
    match mr.2 with
    | '-' :: r2 =>
      match yParse r2 with
      | some (y, r3) => some (y, mr.1, 1, r3)
      | none => none
    | _ => none

/-- Gregorian leap year, as `datetime.date` computes it. -/
def isLeap (y : Nat) : Bool := y % 4 = 0 && (y % 100 ≠ 0 || y % 400 = 0)

def daysInMonth (y m : Nat) : Nat :=
  if m = 2 then (if isLeap y then 29 else 28)
  else if m = 4 || m = 6 || m = 9 || m = 11 then 30
  else 31

/-- `datetime.date(y, m, d)` succeeds (the regexes already bound
`1 ≤ m ≤ 12` and `1 ≤ d ≤ 31`; `y = 0` is out of range for `date`). -/
def validDate (y m d : Nat) : Bool :=
  1 ≤ y && 1 ≤ m && m ≤ 12 && 1 ≤ d && d ≤ daysInMonth y m

/-- `strptime` succeeds: the regex's first match exists, consumed the whole
string, and its captures form a calendar date. -/
def okMatch (r : DMatch) : Bool :=
  match r with
  | some (y, m, d, rem) => rem.isEmpty && validDate y m d
  | none => false

/-- `_detect_date_pattern` on the characters of the key: the ten formats are
tried in the dictionary's order and the first that `strptime`-succeeds gives
the readable pattern name. -/
def detectPat (cs : List Char) : Option String :=
  if okMatch (matchYMDsep '-' cs) then some "yyyy-mm-dd" else
  if okMatch (matchDMYsep '-' cs) then some "dd-mm-yyyy" else
  if okMatch (matchYMDsep '/' cs) then some "yyyy/mm/dd" else
  if okMatch (matchDMYsep '/' cs) then some "dd/mm/yyyy" else
  if okMatch (matchYMDglued cs) then some "yyyymmdd" else
  if okMatch (matchDMYglued cs) then some "ddmmyyyy" else
  if okMatch (matchBDY cs) then some "month dd, yyyy" else
  if okMatch (matchDBY cs) then some "dd month yyyy" else
  if okMatch (matchYM cs) then some "yyyy-mm" else
  if okMatch (matchMY cs) then some "mm-yyyy" else none

/-- `_detect_date_pattern(key)` as the Python pair `(is_date, pattern)`. -/
def detectDatePattern (key : String) : Bool × String :=
  match detectPat key.data with
  | some pat => (true, pat)
  | none => (false, "")

/-! ### Path normalization (`_normalize_path`) -/

/-- Decimal digits of a natural number (Python `str(level)`), in accumulator
form with explicit fuel so that the definition is structurally recursive
(and hence kernel-reducible); `natRepr` supplies fuel `n + 1`, which is
ample since the value shrinks by a factor of ten each step. -/
def natReprAux : Nat → Nat → List Char → List Char
  | 0, _, acc => acc
  | fuel + 1, n, acc =>
    let d := Char.ofNat (48 + n % 10)
    if n < 10 then d :: acc else natReprAux fuel (n / 10) (d :: acc)

/-- Python `str(level)` for a non-negative level. -/
def natRepr (n : Nat) : List Char := natReprAux (n + 1) n []

/-- Python `path.split('.')` on the characters (the separator is the single
character `'.'`; an empty string splits to one empty segment). -/
def splitDot : List Char → List (List Char)
  | [] => [[]]
  | c :: cs =>
    if c = '.' then [] :: splitDot cs
    else
      match splitDot cs with
      | [] => [[c]]
      | p :: ps => (c :: p) :: ps

/-- Python `'.'.join(parts)` on the characters. -/
def joinDot : List (List Char) → List Char
  | [] => []
  | [p] => p
  | p :: ps => p ++ '.' :: joinDot ps

/-- One segment of `_normalize_path`'s loop: a date-like segment becomes
`f"{pattern}_{level}"`, any other segment passes through. -/
def normSeg (level : Nat) (p : List Char) : List Char :=
  match detectPat p with
  | some pat => pat.data ++ '_' :: natRepr level
  | none => p

/-- The loop of `_normalize_path`: `level` is `len(normalized_parts)`, i.e.
the index of the segment. -/
def normParts : Nat → List (List Char) → List (List Char)
  | _, [] => []
  | i, p :: ps => normSeg i p :: normParts (i + 1) ps

/-- `_normalize_path`. -/
def normalizePath (path : String) : String :=
  if path = "" then path
  else String.mk (joinDot (normParts 0 (splitDot path.data)))

/-- The nesting depth at which a key appended to `path` is normalized:
`len(parts)` of the parent path (`0` for the root). -/
def depthOf (p : String) : Nat := if p = "" then 0 else (splitDot p.data).length

/-! ### The walker (`_analyze_value`, `analyze_json`) -/

/-- One entry of `schema_structure`: the recorded type and the sample set.
The Python `set` of strings is modelled as its insertion-ordered list of
distinct elements, so `length` is the set's size. -/
structure SEntry where
  type : String
  samples : List String
deriving Repr, DecidableEq

/-- `schema_structure`: a Python dict modelled as an insertion-ordered
association list with distinct keys. -/
abbrev Registry := List (String × SEntry)

/-- Dict lookup. -/
def lookupR : Registry → String → Option SEntry
  | [], _ => none
  | (k', e) :: rest, k => if k' = k then some e else lookupR rest k

/-- `if normalized_path not in self.schema_structure: …` — create the entry
with the classified type and an empty sample set, only when absent. -/
def regStep (np ty : String) (st : Registry) : Registry :=
  match lookupR st np with
  | some _ => st
  | none => st ++ [(np, ⟨ty, []⟩)]

/-- `samples.add(str(value))` guarded by
`len(samples) < self.max_unique_samples` (the capacity is the literal 10
set in `__init__`). -/
def addSampleEntry (e : SEntry) (s : String) : SEntry :=
  if e.samples.length < 10 then
    (if s ∈ e.samples then e else ⟨e.type, e.samples ++ [s]⟩)
  else e

/-- Apply `addSampleEntry` to the entry stored at key `k` (a map over the
dict's items that rewrites the one whose key is `k`). -/
def addSample : Registry → String → String → Registry
  | [], _, _ => []
  | (k0, e0) :: rest, k, s =>
    (if k0 = k then (k0, addSampleEntry e0 s) else (k0, e0)) :: addSample rest k s

/-- `f"{path}.{key}" if path else key`. -/
def childPath (path key : String) : String :=
  if path = "" then key else path ++ "." ++ key

mutual
/-- `_analyze_value(path, value)`, the registry threaded explicitly.  Note
that the object recursion extends the raw `path` with the raw key, while the
array recursion extends the already-normalized path with the `[]` marker —
exactly as in the source. -/
def analyzeValue (path : String) (v : JVal) (st : Registry) : Registry :=
  let np := normalizePath path
  let st1 := regStep np (typeName v) st
  let st2 := if isComposite v then st1 else addSample st1 np (pyStr v)
  match v with
  | .obj fs => analyzeFields path fs st2
  | .arr (x :: _) => analyzeValue (np ++ "[]") x st2
  | _ => st2

/-- The `for key, val in value.items()` loop. -/
def analyzeFields (path : String) (fs : List (String × JVal)) (st : Registry) :
    Registry :=
  match fs with
  | [] => st
  | (k, v) :: rest => analyzeFields path rest (analyzeValue (childPath path k) v st)
end

/-- `analyze_json`.  `none` records an uncaught exception: `next(iter(...))`
raises `StopIteration` on an empty dict, and `.values()` raises
`AttributeError` on a top-level value that is neither a list nor a dict. -/
def analyzeJson (v : JVal) : Option Registry :=
  match v with
  | .arr [] => some []
  | .arr (x :: _) => some (analyzeValue "" x [])
  | .obj [] => none
  | .obj ((_, v0) :: _) => some (analyzeValue "" v0 [])
  | _ => none

/-! ### The tree builder (`_build_nested_schema`) -/

/-- Python `part.endswith('[]')` on the characters. -/
def endsWithMarker (s : String) : Bool :=
  match s.data.reverse with
  | c1 :: c2 :: _ => c1 = ']' && c2 = '['
  | _ => false

/-- Python `part[:-2]` on the characters. -/
def dropLast2 (s : String) : String := String.mk s.data.dropLast.dropLast

/-- Python string `<` (code-point lexicographic), as a Boolean. -/
def charsLt : List Char → List Char → Bool
  | [], [] => false
  | [], _ :: _ => true
  | _ :: _, [] => false
  | a :: as', b :: bs' => if a < b then true else if b < a then false else charsLt as' bs'

/-- A Python value appearing inside the nested schema dict: a string (type
tags), a list of strings (`examples`), or a nested dict. -/
inductive PyVal where
  | s (v : String) : PyVal
  | strs (v : List String) : PyVal
  | dict (fields : List (String × PyVal)) : PyVal

/-- The fields of a nested-schema dict (insertion-ordered). -/
abbrev PyDict := List (String × PyVal)

/-- Dict lookup (`d[k]` / `k in d`). -/
def dGet : PyDict → String → Option PyVal
  | [], _ => none
  | (k', v) :: rest, k => if k' = k then some v else dGet rest k

/-- Dict assignment `d[k] = v`: replaces in place, appends when new. -/
def dSet : PyDict → String → PyVal → PyDict
  | [], k, v => [(k, v)]
  | (k', v') :: rest, k, v =>
    if k' = k then (k', v) :: rest else (k', v') :: dSet rest k v

/-- `d.update(other)`: assign `other`'s items in order. -/
def dUpdate (d other : PyDict) : PyDict :=
  other.foldl (fun acc kv => dSet acc kv.1 kv.2) d

/-- The leaf dict built by `create_nested_dict` from a registry entry:
`{'type': …}` plus `'examples'` when the sample set is non-empty (the
Python `list(samples)` is the model's insertion-ordered sample list). -/
def entryNode (e : SEntry) : PyDict :=
  ("type", .s e.type) :: (if e.samples.isEmpty then [] else [("examples", .strs e.samples)])

/-- `create_nested_dict(path_parts, value)`. -/
def createNested : List String → SEntry → PyDict
  | [], e => entryNode e
  | part :: rest, e =>
    if endsWithMarker part then
      [(dropLast2 part,
        .dict [("type", .s "array"), ("items", .dict (createNested rest e))])]
    else
      let nested := createNested rest e
      [(part,
        if rest.isEmpty then .dict nested
        else .dict [("type", .s "object"), ("properties", .dict nested)])]

/-- The `# Merge with existing schema` loop body, for one `key, value` pair
of `current_dict`.  Every value reaching it is a dict, and every stored
`'properties'` value is a dict; the wildcard fallbacks (returning the
accumulator unchanged) stand for states the Python code never reaches. -/
def mergeTop (res : PyDict) (k : String) (v : PyVal) : PyDict :=
  match dGet res k with
  | none => dSet res k v
  | some old =>
    match old, v with
    | .dict oldf, .dict newf =>
      match dGet oldf "properties", dGet newf "properties" with
      | some (.dict oldProps), some (.dict newProps) =>
        dSet res k (.dict (dSet oldf "properties" (.dict (dUpdate oldProps newProps))))
      | _, _ => dSet res k (.dict (dUpdate oldf newf))
    | _, _ => res

/-- Insertion into a key-sorted list (`<` is Python's string comparison,
i.e. code-point lexicographic). -/
def insertByKey (x : String × SEntry) : List (String × SEntry) → List (String × SEntry)
  | [] => [x]
  | y :: rest => if charsLt x.1.data y.1.data then x :: y :: rest else y :: insertByKey x rest

/-- `sorted(self.schema_structure.items())`: the registry's keys are
distinct, so sorting the items is sorting by key. -/
def sortByKey (l : List (String × SEntry)) : List (String × SEntry) :=
  l.foldr insertByKey []

/-- `_build_nested_schema`: iterate the sorted registry, skip the root
(empty) path, build each path's nested singleton and merge it into the
result. -/
def buildNested (reg : Registry) : PyDict :=
  (sortByKey reg).foldl
    (fun result pe =>
      if pe.1 = "" then result
      else
        (createNested ((splitDot pe.1.data).map String.mk) pe.2).foldl
          (fun res kv => mergeTop res kv.1 kv.2) result)
    []

/-- The body of `buildNested`'s fold, named for stepwise reasoning. -/
def buildStep (result : PyDict) (pe : String × SEntry) : PyDict :=
  if pe.1 = "" then result
  else
    (createNested ((splitDot pe.1.data).map String.mk) pe.2).foldl
      (fun res kv => mergeTop res kv.1 kv.2) result

/-! ### Derived notions used by the claims -/

/-- The registered paths. -/
def keysOf (st : Registry) : List String := st.map Prod.fst

/-- The parent of a non-empty registered path: strip a trailing array
marker if present, otherwise drop the last dot-separated segment. -/
def parentPath (p : String) : String :=
  if endsWithMarker p then dropLast2 p
  else String.mk (joinDot (splitDot p.data).dropLast)

/-- Every registered non-empty path's parent is registered. -/
def prefixClosed (st : Registry) : Prop :=
  ∀ k, k ∈ keysOf st → k ≠ "" → parentPath k ∈ keysOf st

/-- Entry evolution during a walk: the recorded type is kept and samples are
never evicted. -/
def entryExtends (e e' : SEntry) : Prop :=
  e'.type = e.type ∧ ∀ x ∈ e.samples, x ∈ e'.samples

/-- Registry evolution during a walk. -/
def regExtends (st st' : Registry) : Prop :=
  ∀ k e, lookupR st k = some e → ∃ e', lookupR st' k = some e' ∧ entryExtends e e'

/-- The per-entry sample invariant: at most 10 distinct samples. -/
def sampleInv (st : Registry) : Prop :=
  ∀ k e, lookupR st k = some e → e.samples.length ≤ 10 ∧ e.samples.Nodup

mutual
/-- No object key anywhere in the document contains the path separator or
ends with the array marker (hypothesis of the prefix-closure claim). -/
def goodKeys : JVal → Bool
  | .obj fs => goodFields fs
  | .arr xs => goodElems xs
  | _ => true

def goodElems : List JVal → Bool
  | [] => true
  | x :: rest => goodKeys x && goodElems rest

def goodFields : List (String × JVal) → Bool
  | [] => true
  | (k, v) :: rest =>
    !('.' ∈ k.data) && !(endsWithMarker k) && goodKeys v && goodFields rest
end

/-! ## Theorems -/

/-! ### Registry basics -/

theorem lookupR_append_some {st : Registry} {k : String} {e : SEntry}
    (h : lookupR st k = some e) (l : Registry) : lookupR (st ++ l) k = some e := by
  induction st with
  | nil => simp [lookupR] at h
  | cons p rest ih =>
    obtain ⟨k', e'⟩ := p
    simp only [lookupR, List.cons_append] at h ⊢
    split at h <;> simp_all [lookupR]

theorem lookupR_append_none {st : Registry} {k : String}
    (h : lookupR st k = none) (l : Registry) : lookupR (st ++ l) k = lookupR l k := by
  induction st with
  | nil => simp
  | cons p rest ih =>
    obtain ⟨k', e'⟩ := p
    simp only [lookupR, List.cons_append] at h ⊢
    split at h
    · exact absurd h (by simp)
    · simp_all [lookupR]

theorem lookupR_regStep_some {st : Registry} {k : String} {e : SEntry}
    (h : lookupR st k = some e) (np ty : String) :
    lookupR (regStep np ty st) k = some e := by
  unfold regStep
  split
  · exact h
  · exact lookupR_append_some h _

theorem lookupR_regStep_self (np ty : String) (st : Registry) :
    ∃ e, lookupR (regStep np ty st) np = some e := by
  unfold regStep
  split
  next e heq => exact ⟨e, heq⟩
  next heq => exact ⟨⟨ty, []⟩, by rw [lookupR_append_none heq]; simp [lookupR]⟩

theorem lookupR_addSample (st : Registry) (k' s k : String) :
    lookupR (addSample st k' s) k =
      (lookupR st k).map (fun e => if k' = k then addSampleEntry e s else e) := by
  induction st with
  | nil => simp [addSample, lookupR]
  | cons p rest ih =>
    obtain ⟨k0, e0⟩ := p
    simp only [addSample]
    by_cases h1 : k0 = k'
    · subst h1
      rw [if_pos rfl]
      by_cases h0 : k0 = k
      · subst h0
        simp [lookupR]
      · simp [lookupR, h0, ih]
    · rw [if_neg h1]
      by_cases h0 : k0 = k
      · subst h0
        simp [lookupR, Ne.symm h1]
      · simp [lookupR, h0, ih]

theorem keysOf_addSample (st : Registry) (k s : String) :
    keysOf (addSample st k s) = keysOf st := by
  induction st with
  | nil => rfl
  | cons p rest ih =>
    obtain ⟨k0, e0⟩ := p
    simp only [addSample, keysOf, List.map_cons] at ih ⊢
    split <;> simp_all

theorem keysOf_regStep (np ty : String) (st : Registry) :
    keysOf (regStep np ty st) = keysOf st ∨
      keysOf (regStep np ty st) = keysOf st ++ [np] := by
  unfold regStep
  split
  · exact Or.inl rfl
  · right; simp [keysOf]

theorem mem_keysOf_of_lookupR {st : Registry} {k : String} {e : SEntry}
    (h : lookupR st k = some e) : k ∈ keysOf st := by
  induction st with
  | nil => simp [lookupR] at h
  | cons p rest ih =>
    obtain ⟨k', e'⟩ := p
    simp only [lookupR] at h
    split at h
    · simp_all [keysOf]
    · simp only [keysOf, List.map_cons, List.mem_cons]
      exact Or.inr (ih h)

theorem lookupR_of_mem_keysOf {st : Registry} {k : String}
    (h : k ∈ keysOf st) : ∃ e, lookupR st k = some e := by
  induction st with
  | nil => simp [keysOf] at h
  | cons p rest ih =>
    obtain ⟨k', e'⟩ := p
    simp only [keysOf, List.map_cons, List.mem_cons] at h
    by_cases hk : k' = k
    · exact ⟨e', by simp [lookupR, hk]⟩
    · rcases h with h | h
      · exact absurd h.symm hk
      · obtain ⟨e, he⟩ := ih h
        exact ⟨e, by simp [lookupR, hk, he]⟩

/-! ### Entry-level sample facts -/

theorem addSampleEntry_type (e : SEntry) (s : String) :
    (addSampleEntry e s).type = e.type := by
  unfold addSampleEntry
  split_ifs <;> rfl

theorem addSampleEntry_superset (e : SEntry) (s : String) :
    ∀ x ∈ e.samples, x ∈ (addSampleEntry e s).samples := by
  intro x hx
  unfold addSampleEntry
  split_ifs <;> simp_all

theorem addSampleEntry_bound {e : SEntry} (s : String)
    (h : e.samples.length ≤ 10) : (addSampleEntry e s).samples.length ≤ 10 := by
  unfold addSampleEntry
  split_ifs with h1 h2 <;> simp_all
  omega

theorem addSampleEntry_nodup {e : SEntry} (s : String)
    (h : e.samples.Nodup) : (addSampleEntry e s).samples.Nodup := by
  unfold addSampleEntry
  split_ifs with h1 h2 <;> simp_all [List.nodup_append]

theorem addSampleEntry_at_cap {e : SEntry} (s : String)
    (h : e.samples.length = 10) : addSampleEntry e s = e := by
  unfold addSampleEntry
  rw [if_neg (by omega)]

/-! ### The walk only extends the registry -/

theorem regExtends_refl (st : Registry) : regExtends st st :=
  fun _ e h => ⟨e, h, rfl, fun _ hx => hx⟩

theorem regExtends_trans {s1 s2 s3 : Registry}
    (h12 : regExtends s1 s2) (h23 : regExtends s2 s3) : regExtends s1 s3 := by
  intro k e h
  obtain ⟨e', he', hty, hsub⟩ := h12 k e h
  obtain ⟨e'', he'', hty', hsub'⟩ := h23 k e' he'
  exact ⟨e'', he'', hty'.trans hty, fun x hx => hsub' x (hsub x hx)⟩

theorem regExtends_regStep (np ty : String) (st : Registry) :
    regExtends st (regStep np ty st) :=
  fun _ e h => ⟨e, lookupR_regStep_some h np ty, rfl, fun _ hx => hx⟩

theorem regExtends_addSample (st : Registry) (k' s : String) :
    regExtends st (addSample st k' s) := by
  intro k e h
  rw [lookupR_addSample, h]
  by_cases hk : k' = k
  · exact ⟨_, by simp [hk], addSampleEntry_type e s, addSampleEntry_superset e s⟩
  · exact ⟨e, by simp [hk], rfl, fun _ hx => hx⟩

theorem analyzeValue_extends :
    ∀ (path : String) (v : JVal) (st : Registry), regExtends st (analyzeValue path v st) := by
  refine analyzeValue.induct
    (fun path v st => regExtends st (analyzeValue path v st))
    (fun path fs st => regExtends st (analyzeFields path fs st))
    ?_ ?_ ?_ ?_ ?_
  · intro path st np fs st1 st2 ih
    refine regExtends_trans ?_ ih
    exact regExtends_trans (regExtends_regStep _ _ _) (regExtends_refl _)
  · intro path st np x tail st1 st2 ih
    refine regExtends_trans ?_ ih
    exact regExtends_trans (regExtends_regStep _ _ _) (regExtends_refl _)
  · intro t path st hobj harr
    show regExtends st (analyzeValue path t st)
    unfold analyzeValue
    match t, hobj, harr with
    | .null, _, _ | .bool _, _, _ | .int _, _, _ | .float _, _, _ | .str _, _, _
    | .other _ _, _, _ =>
      exact regExtends_trans (regExtends_regStep _ _ _) (regExtends_addSample _ _ _)
    | .arr [], _, harr =>
      exact regExtends_trans (regExtends_regStep _ _ _) (regExtends_refl _)
    | .arr (x :: tail), _, harr => exact absurd rfl (harr x tail)
    | .obj fs, hobj, _ => exact absurd rfl (hobj fs)
  · intro path st
    exact regExtends_refl st
  · intro path st k v rest ih1 ih2
    exact regExtends_trans ih1 ih2

/-! ### The sample invariant is preserved -/

theorem lookupR_append_cases {st l : Registry} {k : String} {e : SEntry}
    (h : lookupR (st ++ l) k = some e) :
    lookupR st k = some e ∨ lookupR l k = some e := by
  induction st with
  | nil => right; simpa using h
  | cons p rest ih =>
    obtain ⟨k0, e0⟩ := p
    by_cases hk : k0 = k
    · left
      simp only [List.cons_append, lookupR, if_pos hk] at h ⊢
      exact h
    · simp only [List.cons_append, lookupR, if_neg hk] at h ⊢
      exact ih h

theorem sampleInv_regStep {st : Registry} (np ty : String)
    (h : sampleInv st) : sampleInv (regStep np ty st) := by
  intro k e he
  unfold regStep at he
  split at he
  · exact h k e he
  · rcases lookupR_append_cases he with h1 | h1
    · exact h k e h1
    · simp only [lookupR] at h1
      split at h1
      · cases h1
        exact ⟨by simp, by simp⟩
      · cases h1

theorem sampleInv_addSample {st : Registry} (k' s : String)
    (h : sampleInv st) : sampleInv (addSample st k' s) := by
  intro k e he
  rw [lookupR_addSample] at he
  cases hst : lookupR st k with
  | none => rw [hst] at he; cases he
  | some e0 =>
    rw [hst] at he
    simp only [Option.map_some'] at he
    obtain ⟨h10, hnd⟩ := h k e0 hst
    split_ifs at he with hk
    · cases he
      exact ⟨addSampleEntry_bound s h10, addSampleEntry_nodup s hnd⟩
    · cases he
      exact ⟨h10, hnd⟩

theorem analyzeValue_sampleInv :
    ∀ (path : String) (v : JVal) (st : Registry),
      sampleInv st → sampleInv (analyzeValue path v st) := by
  refine analyzeValue.induct
    (fun path v st => sampleInv st → sampleInv (analyzeValue path v st))
    (fun path fs st => sampleInv st → sampleInv (analyzeFields path fs st))
    ?_ ?_ ?_ ?_ ?_
  · intro path st np fs st1 st2 ih h
    exact ih (sampleInv_regStep _ _ h)
  · intro path st np x tail st1 st2 ih h
    exact ih (sampleInv_regStep _ _ h)
  · intro t path st hobj harr
    show sampleInv st → sampleInv (analyzeValue path t st)
    match t, hobj, harr with
    | .null, _, _ | .bool _, _, _ | .int _, _, _ | .float _, _, _ | .str _, _, _
    | .other _ _, _, _ =>
      exact fun h => sampleInv_addSample _ _ (sampleInv_regStep _ _ h)
    | .arr [], _, _ => exact fun h => sampleInv_regStep _ _ h
    | .arr (x :: tail), _, harr => exact absurd rfl (harr x tail)
    | .obj fs, hobj, _ => exact absurd rfl (hobj fs)
  · intro path st h
    exact h
  · intro path st k v rest ih1 ih2 h
    exact ih2 (ih1 h)

/-! ### Claim theorems: classifier, array policy, first-type-wins, samples -/

/-- Claim C4: `_get_type_name` is a pure total function of the value's
shape alone: `null`/`boolean`/`integer`/`float`/`string`/`array`/`object`
per constructor (booleans never classified as integers, all integers alike),
and the fallback returns the runtime type's name instead of failing. -/
theorem C4_classifier_shape_determined :
    typeName .null = "null"
    ∧ (∀ b, typeName (.bool b) = "boolean")
    ∧ (∀ n, typeName (.int n) = "integer")
    ∧ (∀ r, typeName (.float r) = "float")
    ∧ (∀ s, typeName (.str s) = "string")
    ∧ (∀ xs, typeName (.arr xs) = "array")
    ∧ (∀ fs, typeName (.obj fs) = "object")
    ∧ (∀ t r, typeName (.other t r) = t)
    ∧ (∀ b, typeName (.bool b) ≠ "integer")
    ∧ typeName (.int 0) = typeName (.int 42) := by
  refine ⟨rfl, fun b => rfl, fun n => rfl, fun r => rfl, fun s => rfl,
    fun xs => rfl, fun fs => rfl, fun t r => rfl, fun b => ?_, rfl⟩
  show "boolean" ≠ "integer"
  decide

/-- Claim C7: on a non-empty array the walker recurses exactly once, into
element 0 only, at the child path `normalized ++ "[]"`; the later elements
never influence the resulting registry; an empty array only records its own
entry (of type `array` on first sight) and no item entry. -/
theorem C7_array_first_element_only :
    (∀ (path : String) (x : JVal) (xs : List JVal) (st : Registry),
      analyzeValue path (.arr (x :: xs)) st
        = analyzeValue (normalizePath path ++ "[]") x
            (regStep (normalizePath path) "array" st))
    ∧ (∀ (path : String) (x : JVal) (xs xs' : List JVal) (st : Registry),
      analyzeValue path (.arr (x :: xs)) st = analyzeValue path (.arr (x :: xs')) st)
    ∧ (∀ (path : String) (st : Registry),
      analyzeValue path (.arr []) st = regStep (normalizePath path) "array" st)
    ∧ (∀ (path : String) (st : Registry),
      lookupR (analyzeValue path (.arr []) st) (normalizePath path ++ "[]")
        = lookupR st (normalizePath path ++ "[]")) := by
  refine ⟨fun path x xs st => rfl, fun path x xs xs' st => rfl,
    fun path st => rfl, fun path st => ?_⟩
  show lookupR (regStep (normalizePath path) "array" st) _ = _
  unfold regStep
  split
  · rfl
  next hnone =>
    by_cases hm : (normalizePath path ++ "[]") ∈ keysOf st
    · obtain ⟨e, he⟩ := lookupR_of_mem_keysOf hm
      rw [lookupR_append_some he, he]
    · have hn : lookupR st (normalizePath path ++ "[]") = none := by
        cases hq : lookupR st (normalizePath path ++ "[]") with
        | none => rfl
        | some e => exact absurd (mem_keysOf_of_lookupR hq) hm
      rw [lookupR_append_none hn, hn]
      simp only [lookupR]
      rw [if_neg]
      intro hcontra
      have hlen := congrArg String.length hcontra
      rw [String.length_append] at hlen
      have h2 : ("[]" : String).length = 2 := rfl
      omega

/-- Claim C8: the type recorded for a normalized path is fixed at first
sight — any later walk reaching an already-registered path leaves the
recorded type unchanged. -/
theorem C8_first_type_wins (path : String) (v : JVal) (st : Registry)
    (k : String) (e : SEntry) (h : lookupR st k = some e) :
    ∃ e', lookupR (analyzeValue path v st) k = some e' ∧ e'.type = e.type := by
  obtain ⟨e', he', hty, _⟩ := analyzeValue_extends path v st k e h
  exact ⟨e', he', hty⟩

/-- Witness for C8: the path `a` is first seen with an integer; a second
walk that revisits `a` with a string value leaves the recorded type
`integer`. -/
theorem C8_first_type_wins_witness :
    ∃ e', lookupR
        (analyzeValue "" (.obj [("a", .str "x")])
          [("", ⟨"object", []⟩), ("a", ⟨"integer", ["1"]⟩)]) "a"
      = some e' ∧ e'.type = "integer" :=
  C8_first_type_wins "" (.obj [("a", .str "x")])
    [("", ⟨"object", []⟩), ("a", ⟨"integer", ["1"]⟩)] "a" ⟨"integer", ["1"]⟩ rfl

/-- Claim C6: every entry's sample set stays within the capacity 10
throughout a walk (and stays duplicate-free, so length is the set's size);
samples are never evicted; at capacity the add operation is the identity;
and a path fed 11 distinct scalar values ends with exactly 10 samples. -/
theorem C6_sample_cap :
    (∀ (path : String) (v : JVal) (st : Registry),
      sampleInv st → sampleInv (analyzeValue path v st))
    ∧ (∀ (path : String) (v : JVal) (st : Registry) (k : String) (e : SEntry),
      lookupR st k = some e →
        ∃ e', lookupR (analyzeValue path v st) k = some e'
          ∧ ∀ x ∈ e.samples, x ∈ e'.samples)
    ∧ (∀ (e : SEntry) (s : String), e.samples.length = 10 → addSampleEntry e s = e)
    ∧ (lookupR
        (analyzeValue ""
          (.obj [("2021-11-01", .int 1), ("2021-11-02", .int 2), ("2021-11-03", .int 3),
                 ("2021-11-04", .int 4), ("2021-11-05", .int 5), ("2021-11-06", .int 6),
                 ("2021-11-07", .int 7), ("2021-11-08", .int 8), ("2021-11-09", .int 9),
                 ("2021-11-10", .int 10), ("2021-11-11", .int 11)]) [])
        "yyyy-mm-dd_0").map (fun e => e.samples.length) = some 10 := by
  refine ⟨analyzeValue_sampleInv, ?_, fun e s h => addSampleEntry_at_cap s h, by decide⟩
  intro path v st k e h
  obtain ⟨e', he', _, hsub⟩ := analyzeValue_extends path v st k e h
  exact ⟨e', he', hsub⟩

/-- Witness for C6: the invariant and no-eviction parts applied at a
concrete state. -/
theorem C6_sample_cap_witness :
    sampleInv (analyzeValue "" (.int 5) [])
    ∧ ∃ e', lookupR (analyzeValue "" (.str "b") [("", ⟨"string", ["a"]⟩)]) ""
        = some e' ∧ ∀ x ∈ (["a"] : List String), x ∈ e'.samples :=
  ⟨C6_sample_cap.1 "" (.int 5) [] (fun _ _ h => nomatch h),
   C6_sample_cap.2.1 "" (.str "b") [("", ⟨"string", ["a"]⟩)] "" ⟨"string", ["a"]⟩ rfl⟩

/-! ### Claim theorems: end-to-end pipeline and top-level entry -/

/-- Counterexample to claim C1: on the input
`{"user": {"id": 1, "name": "Al"}, "tags": ["x", "y"]}` (a single top-level
mapping) the pipeline's tree has no key `user` and no key `tags` at all —
`analyze_json` walks only the mapping's first *value*. -/
theorem C1_counterexample_no_user_key :
    (analyzeJson
        (.obj [("user", .obj [("id", .int 1), ("name", .str "Al")]),
               ("tags", .arr [.str "x", .str "y"])])).map
      (fun r => (dGet (buildNested r) "user", dGet (buildNested r) "tags"))
    = some (none, none) := by rfl

/-- Claim C1 (amended): on a top-level mapping the pipeline walks only the
first value, so the input above yields the tree
`{id: integer (example "1"), name: string (example "Al")}`; the tree claimed
by the spec — `user` an object with `id`/`name`, `tags` an array of strings
with example `"x"` — is produced when the same record is wrapped as a
single-element top-level list. -/
theorem C1_pipeline_end_to_end :
    (analyzeJson
        (.obj [("user", .obj [("id", .int 1), ("name", .str "Al")]),
               ("tags", .arr [.str "x", .str "y"])])).map buildNested
      = some [("id", .dict [("type", .s "integer"), ("examples", .strs ["1"])]),
              ("name", .dict [("type", .s "string"), ("examples", .strs ["Al"])])]
    ∧ (analyzeJson
        (.arr [.obj [("user", .obj [("id", .int 1), ("name", .str "Al")]),
                     ("tags", .arr [.str "x", .str "y"])]])).map buildNested
      = some [("tags", .dict [("type", .s "array"),
                ("items", .dict [("type", .s "string"), ("examples", .strs ["x"])])]),
              ("user", .dict [("type", .s "object"),
                ("properties", .dict
                  [("id", .dict [("type", .s "integer"), ("examples", .strs ["1"])]),
                   ("name", .dict [("type", .s "string"), ("examples", .strs ["Al"])])])])]
    := ⟨rfl, rfl⟩

/-- Counterexample to claim C3: the empty object is a well-formed JSON value,
yet `analyze_json({})` evaluates `next(iter({}.values()))` and the uncaught
`StopIteration` escapes (modelled as `none`); a top-level scalar likewise
raises `AttributeError` on `.values()`. -/
theorem C3_counterexample_empty_object :
    analyzeJson (.obj []) = none ∧ analyzeJson .null = none := ⟨rfl, rfl⟩

/-- Claim C3 (amended): for every top-level value that is a list (of any
length) or a non-empty mapping, `analyze_json` — and with it the whole
walk, whose embedding is a total function — completes without raising,
whatever well-formed JSON sits below. -/
theorem C3_no_raise_on_lists_and_nonempty_objects (v : JVal)
    (h : (∃ xs, v = JVal.arr xs) ∨ ∃ p fs, v = JVal.obj (p :: fs)) :
    (analyzeJson v).isSome := by
  rcases h with ⟨xs, rfl⟩ | ⟨p, fs, rfl⟩
  · cases xs <;> rfl
  · rfl

/-- Witness for C3: the two hypothesis shapes at concrete inputs. -/
theorem C3_no_raise_witness :
    (analyzeJson (.arr [])).isSome ∧ (analyzeJson (.obj [("k", .int 1)])).isSome :=
  ⟨C3_no_raise_on_lists_and_nonempty_objects (.arr []) (Or.inl ⟨[], rfl⟩),
   C3_no_raise_on_lists_and_nonempty_objects (.obj [("k", .int 1)])
     (Or.inr ⟨("k", .int 1), [], rfl⟩)⟩

/-- Counterexample to claim C2: with the normalized paths `a.b.c` and
`a.b.d` in the registry (from walking `{"a": {"b": {"c": 1, "d": 2}}}`),
the later entry's subtree *replaces* the node at `b`, dropping the sibling
property `c` — the properties union happens only at the top level of the
result. -/
theorem C2_counterexample_deep_sibling_dropped :
    (analyzeJson (.arr [.obj [("a", .obj [("b", .obj [("c", .int 1), ("d", .int 2)])])]])).map
      buildNested
    = some [("a", .dict [("type", .s "object"),
        ("properties", .dict [("b", .dict [("type", .s "object"),
          ("properties", .dict
            [("d", .dict [("type", .s "integer"), ("examples", .strs ["2"])])])])])])]
    := by rfl

/-! ### String and path-splitting toolbox -/

theorem mk_data (s : String) : String.mk s.data = s := by
  cases s
  rfl

theorem dataAppend (a b : String) : (a ++ b).data = a.data ++ b.data := by
  cases a
  cases b
  rfl

theorem eq_empty_iff_data (s : String) : s = "" ↔ s.data = [] := by
  constructor
  · intro h
    rw [h]
  · intro h
    cases s with
    | mk d =>
      have hd : d = [] := h
      rw [hd]

theorem splitDot_cons (c : Char) (cs : List Char) :
    splitDot (c :: cs) = if c = '.' then [] :: splitDot cs
      else match splitDot cs with
           | [] => [[c]]
           | p :: ps => (c :: p) :: ps := rfl

theorem splitDot_cons_sep :
    ∀ (u : List Char), (∀ c ∈ u, ¬ c = '.') →
      ∀ t, splitDot (u ++ '.' :: t) = u :: splitDot t := by
  intro u
  induction u with
  | nil =>
    intro _ t
    show splitDot ('.' :: t) = [] :: splitDot t
    rw [splitDot_cons, if_pos rfl]
  | cons c u ih =>
    intro hu t
    show splitDot (c :: (u ++ '.' :: t)) = (c :: u) :: splitDot t
    rw [splitDot_cons, if_neg (hu c (by simp)), ih (fun x hx => hu x (by simp [hx])) t]

theorem splitDot_ne_nil (cs : List Char) : splitDot cs ≠ [] := by
  induction cs with
  | nil => simp [splitDot]
  | cons c cs ih =>
    unfold splitDot
    split
    · simp
    · split
      · simp
      · simp

theorem splitDot_dotFree {cs : List Char} (h : ∀ c ∈ cs, ¬ c = '.') :
    splitDot cs = [cs] := by
  induction cs with
  | nil => rfl
  | cons c cs ih =>
    unfold splitDot
    rw [if_neg (h c (by simp))]
    rw [ih (fun x hx => h x (by simp [hx]))]

theorem splitDot_elements_dotFree :
    ∀ (cs : List Char) (q : List Char), q ∈ splitDot cs → ∀ c ∈ q, ¬ c = '.' := by
  intro cs
  induction cs with
  | nil =>
    intro q hq
    simp [splitDot] at hq
    simp [hq]
  | cons c cs ih =>
    intro q hq
    unfold splitDot at hq
    by_cases hc : c = '.'
    · rw [if_pos hc] at hq
      rcases List.mem_cons.mp hq with h | h
      · simp [h]
      · exact ih q h
    · rw [if_neg hc] at hq
      obtain ⟨p, ps, hps⟩ := List.exists_cons_of_ne_nil (splitDot_ne_nil cs)
      rw [hps] at hq
      rcases List.mem_cons.mp hq with h | h
      · subst h
        intro x hx
        rcases List.mem_cons.mp hx with h | h
        · subst h; exact hc
        · exact ih p (by rw [hps]; simp) x h
      · exact ih q (by rw [hps]; simp [h])

theorem splitDot_append_sep {ys : List Char} (h : ∀ c ∈ ys, ¬ c = '.') :
    ∀ xs, splitDot (xs ++ '.' :: ys) = splitDot xs ++ [ys] := by
  intro xs
  induction xs with
  | nil =>
    show splitDot ('.' :: ys) = splitDot [] ++ [ys]
    unfold splitDot
    rw [if_pos rfl, splitDot_dotFree h]
    rfl
  | cons c xs ih =>
    show splitDot (c :: (xs ++ '.' :: ys)) = splitDot (c :: xs) ++ [ys]
    unfold splitDot
    by_cases hc : c = '.'
    · rw [if_pos hc, if_pos hc, ih]
      rfl
    · rw [if_neg hc, if_neg hc, ih]
      obtain ⟨p, ps, hps⟩ := List.exists_cons_of_ne_nil (splitDot_ne_nil xs)
      rw [hps]
      rfl

theorem joinDot_splitDot : ∀ cs : List Char, joinDot (splitDot cs) = cs := by
  intro cs
  induction cs with
  | nil => rfl
  | cons c cs ih =>
    unfold splitDot
    by_cases hc : c = '.'
    · rw [if_pos hc]
      obtain ⟨q, qs, hqs⟩ := List.exists_cons_of_ne_nil (splitDot_ne_nil cs)
      rw [hqs]
      show [] ++ '.' :: joinDot (q :: qs) = c :: cs
      rw [hc, ← hqs, ih]
      rfl
    · rw [if_neg hc]
      obtain ⟨q, qs, hqs⟩ := List.exists_cons_of_ne_nil (splitDot_ne_nil cs)
      rw [hqs]
      cases qs with
      | nil =>
        show c :: q = c :: cs
        have : joinDot [q] = cs := by rw [← hqs, ih]
        simpa [joinDot] using this
      | cons q2 qs2 =>
        show (c :: q) ++ '.' :: joinDot (q2 :: qs2) = c :: cs
        have : q ++ '.' :: joinDot (q2 :: qs2) = cs := by
          have := ih
          rw [hqs] at this
          simpa [joinDot] using this
        simp [this]

theorem joinDot_append_last (p : List Char) :
    ∀ ps, ps ≠ [] → joinDot (ps ++ [p]) = joinDot ps ++ '.' :: p := by
  intro ps
  induction ps with
  | nil => intro h; exact absurd rfl h
  | cons q qs ih =>
    intro _
    cases qs with
    | nil => rfl
    | cons q2 qs2 =>
      show joinDot (q :: (q2 :: qs2 ++ [p])) = (q ++ '.' :: joinDot (q2 :: qs2)) ++ '.' :: p
      have hne : q2 :: qs2 ++ [p] ≠ [] := by simp
      obtain ⟨r, rs, hrs⟩ := List.exists_cons_of_ne_nil hne
      calc joinDot (q :: (q2 :: qs2 ++ [p]))
          = q ++ '.' :: joinDot (q2 :: qs2 ++ [p]) := by rw [hrs]; rfl
        _ = q ++ '.' :: (joinDot (q2 :: qs2) ++ '.' :: p) := by
              rw [ih (by simp)]
        _ = (q ++ '.' :: joinDot (q2 :: qs2)) ++ '.' :: p := by simp

theorem splitDot_joinDot :
    ∀ ps : List (List Char), ps ≠ [] → (∀ p ∈ ps, ∀ c ∈ p, ¬ c = '.') →
      splitDot (joinDot ps) = ps := by
  intro ps
  induction ps with
  | nil => intro h; exact absurd rfl h
  | cons q qs ih =>
    intro _ hdf
    cases qs with
    | nil =>
      show splitDot (joinDot [q]) = [q]
      exact splitDot_dotFree (hdf q (by simp))
    | cons q2 qs2 =>
      show splitDot (q ++ '.' :: joinDot (q2 :: qs2)) = q :: q2 :: qs2
      rw [splitDot_cons_sep q (hdf q (by simp)) (joinDot (q2 :: qs2))]
      rw [ih (by simp) (fun p hp => hdf p (by simp [hp]))]

theorem splitDot_extend_last {suf : List Char} (hs : ∀ c ∈ suf, ¬ c = '.') :
    ∀ (cs : List Char) (init : List (List Char)) (last : List Char),
      splitDot cs = init ++ [last] →
      splitDot (cs ++ suf) = init ++ [last ++ suf] := by
  intro cs
  induction cs with
  | nil =>
    intro init last h
    have h' : init ++ [last] = [[]] := h.symm
    have hinit : init = [] := by
      cases init with
      | nil => rfl
      | cons a as =>
        exfalso
        have := congrArg List.length h'
        simp at this
    subst hinit
    have hlast : last = [] := by simpa using h'
    subst hlast
    simpa using splitDot_dotFree hs
  | cons c cs ih =>
    intro init last h
    rw [splitDot_cons] at h
    rw [show (c :: cs) ++ suf = c :: (cs ++ suf) from rfl, splitDot_cons]
    by_cases hc : c = '.'
    · rw [if_pos hc] at h ⊢
      cases init with
      | nil =>
        exfalso
        have h2 : splitDot cs = [] := by
          have := congrArg List.tail h
          simpa using this
        exact splitDot_ne_nil cs h2
      | cons i0 init' =>
        have h0 : i0 = [] := by
          have := congrArg List.head? h
          simpa using this.symm
        have h2 : splitDot cs = init' ++ [last] := by
          have := congrArg List.tail h
          simpa using this
        rw [ih init' last h2, h0]
        rfl
    · rw [if_neg hc] at h ⊢
      obtain ⟨p, ps, hps⟩ := List.exists_cons_of_ne_nil (splitDot_ne_nil cs)
      rw [hps] at h
      cases init with
      | nil =>
        have hlast : c :: p = last := by
          have := congrArg List.head? h
          simpa using this
        have hps0 : ps = [] := by
          have := congrArg List.tail h
          simpa using this
        have h2 : splitDot (cs ++ suf) = [] ++ [p ++ suf] := by
          apply ih [] p
          rw [hps, hps0]
          rfl
        rw [h2]
        show [c :: (p ++ suf)] = [last ++ suf]
        rw [← hlast]
        rfl
      | cons i0 init' =>
        have h0 : i0 = c :: p := by
          have := congrArg List.head? h
          simpa using this.symm
        have h2 : ps = init' ++ [last] := by
          have := congrArg List.tail h
          simpa using this
        have h3 : splitDot (cs ++ suf) = (p :: init') ++ [last ++ suf] := by
          apply ih (p :: init') last
          rw [hps, h2]
          rfl
        rw [h3, h0]
        rfl

/-! ### No canonical token, and no token-or-plain segment with the array
marker appended, is itself date-like.

Every date grammar dies within the first two characters of each canonical
token (the leading `y`/`d`/`m` is not a digit and starts no month name), so
these ten facts hold by computation, uniformly in the depth suffix. -/

theorem detect_tok1 (l : List Char) :
    detectPat ('y' :: 'y' :: 'y' :: 'y' :: '-' :: 'm' :: 'm' :: '-' :: 'd' :: 'd' :: '_' :: l)
      = none := rfl

theorem detect_tok2 (l : List Char) :
    detectPat ('d' :: 'd' :: '-' :: 'm' :: 'm' :: '-' :: 'y' :: 'y' :: 'y' :: 'y' :: '_' :: l)
      = none := rfl

theorem detect_tok3 (l : List Char) :
    detectPat ('y' :: 'y' :: 'y' :: 'y' :: '/' :: 'm' :: 'm' :: '/' :: 'd' :: 'd' :: '_' :: l)
      = none := rfl

theorem detect_tok4 (l : List Char) :
    detectPat ('d' :: 'd' :: '/' :: 'm' :: 'm' :: '/' :: 'y' :: 'y' :: 'y' :: 'y' :: '_' :: l)
      = none := rfl

theorem detect_tok5 (l : List Char) :
    detectPat ('y' :: 'y' :: 'y' :: 'y' :: 'm' :: 'm' :: 'd' :: 'd' :: '_' :: l) = none := rfl

theorem detect_tok6 (l : List Char) :
    detectPat ('d' :: 'd' :: 'm' :: 'm' :: 'y' :: 'y' :: 'y' :: 'y' :: '_' :: l) = none := rfl

theorem detect_tok7 (l : List Char) :
    detectPat ('m' :: 'o' :: 'n' :: 't' :: 'h' :: ' ' :: 'd' :: 'd' :: ',' :: ' ' ::
      'y' :: 'y' :: 'y' :: 'y' :: '_' :: l) = none := rfl

theorem detect_tok8 (l : List Char) :
    detectPat ('d' :: 'd' :: ' ' :: 'm' :: 'o' :: 'n' :: 't' :: 'h' :: ' ' ::
      'y' :: 'y' :: 'y' :: 'y' :: '_' :: l) = none := rfl

theorem detect_tok9 (l : List Char) :
    detectPat ('y' :: 'y' :: 'y' :: 'y' :: '-' :: 'm' :: 'm' :: '_' :: l) = none := rfl

theorem detect_tok10 (l : List Char) :
    detectPat ('m' :: 'm' :: '-' :: 'y' :: 'y' :: 'y' :: 'y' :: '_' :: l) = none := rfl

/-- The detector only ever reports one of the ten readable pattern names. -/
theorem detect_mem {cs : List Char} {pat : String} (h : detectPat cs = some pat) :
    pat ∈ ["yyyy-mm-dd", "dd-mm-yyyy", "yyyy/mm/dd", "dd/mm/yyyy", "yyyymmdd",
           "ddmmyyyy", "month dd, yyyy", "dd month yyyy", "yyyy-mm", "mm-yyyy"] := by
  unfold detectPat at h
  split at h
  · cases h; simp
  split at h
  · cases h; simp
  split at h
  · cases h; simp
  split at h
  · cases h; simp
  split at h
  · cases h; simp
  split at h
  · cases h; simp
  split at h
  · cases h; simp
  split at h
  · cases h; simp
  split at h
  · cases h; simp
  split at h
  · cases h; simp
  · cases h

theorem natReprAux_sfx : ∀ (fuel n : Nat) (acc : List Char),
    ∃ l, natReprAux fuel n acc = l ++ acc := by
  intro fuel
  induction fuel with
  | zero => intro n acc; exact ⟨[], rfl⟩
  | succ fuel ih =>
    intro n acc
    unfold natReprAux
    split
    · exact ⟨[Char.ofNat (48 + n % 10)], rfl⟩
    · obtain ⟨l, hl⟩ := ih (n / 10) (Char.ofNat (48 + n % 10) :: acc)
      exact ⟨l ++ [Char.ofNat (48 + n % 10)], by rw [hl]; simp⟩

theorem natRepr_ne_nil (n : Nat) : natRepr n ≠ [] := by
  unfold natRepr natReprAux
  split
  · simp
  · show natReprAux n (n / 10) [Char.ofNat (48 + n % 10)] ≠ []
    obtain ⟨l, hl⟩ := natReprAux_sfx n (n / 10) [Char.ofNat (48 + n % 10)]
    rw [hl]
    simp

theorem ofNat_digit_isDigit {m : Nat} (h : m < 10) :
    (Char.ofNat (48 + m)).isDigit = true := by
  interval_cases m <;> decide

theorem natReprAux_digits : ∀ (fuel n : Nat) (acc : List Char),
    (∀ c ∈ acc, c.isDigit = true) → ∀ c ∈ natReprAux fuel n acc, c.isDigit = true := by
  intro fuel
  induction fuel with
  | zero => intro n acc hacc; exact hacc
  | succ fuel ih =>
    intro n acc hacc
    unfold natReprAux
    have hd : (Char.ofNat (48 + n % 10)).isDigit = true :=
      ofNat_digit_isDigit (Nat.mod_lt _ (by omega))
    split
    · intro c hc
      rcases List.mem_cons.mp hc with h | h
      · rw [h]; exact hd
      · exact hacc c h
    · refine ih (n / 10) _ ?_
      intro c hc
      rcases List.mem_cons.mp hc with h | h
      · rw [h]; exact hd
      · exact hacc c h

theorem natRepr_digits (n : Nat) : ∀ c ∈ natRepr n, c.isDigit = true :=
  natReprAux_digits (n + 1) n [] (by simp)

/-- A segment produced by the normalizer is never date-like itself. -/
theorem normSeg_detect_none (i : Nat) (p : List Char) :
    detectPat (normSeg i p) = none := by
  unfold normSeg
  cases h : detectPat p with
  | none => exact h
  | some pat =>
    have hm := detect_mem h
    simp only [List.mem_cons, List.not_mem_nil, or_false] at hm
    rcases hm with h1 | h1 | h1 | h1 | h1 | h1 | h1 | h1 | h1 | h1 <;> subst h1
    · exact detect_tok1 (natRepr i)
    · exact detect_tok2 (natRepr i)
    · exact detect_tok3 (natRepr i)
    · exact detect_tok4 (natRepr i)
    · exact detect_tok5 (natRepr i)
    · exact detect_tok6 (natRepr i)
    · exact detect_tok7 (natRepr i)
    · exact detect_tok8 (natRepr i)
    · exact detect_tok9 (natRepr i)
    · exact detect_tok10 (natRepr i)

theorem normSeg_dotFree {p : List Char} (hp : ∀ c ∈ p, ¬ c = '.') (i : Nat) :
    ∀ c ∈ normSeg i p, ¬ c = '.' := by
  intro c hc
  unfold normSeg at hc
  cases h : detectPat p with
  | none => rw [h] at hc; exact hp c hc
  | some pat =>
    rw [h] at hc
    have hc' : c ∈ pat.data ++ '_' :: natRepr i := hc
    rcases List.mem_append.mp hc' with h1 | h1
    · have hm := detect_mem h
      simp only [List.mem_cons, List.not_mem_nil, or_false] at hm
      clear hc hc'
      rcases hm with h2 | h2 | h2 | h2 | h2 | h2 | h2 | h2 | h2 | h2 <;>
        subst h2 <;> revert h1 <;> revert c <;> decide
    · rcases List.mem_cons.mp h1 with h2 | h2
      · subst h2; decide
      · have hd := natRepr_digits i c h2
        intro hcontra
        rw [hcontra] at hd
        exact absurd hd (by decide)

theorem normSeg_ne_nil {p : List Char} (hp : p ≠ []) (i : Nat) :
    normSeg i p ≠ [] := by
  unfold normSeg
  cases h : detectPat p with
  | none => exact hp
  | some pat =>
    have hm := detect_mem h
    simp only [List.mem_cons, List.not_mem_nil, or_false] at hm
    rcases hm with h2 | h2 | h2 | h2 | h2 | h2 | h2 | h2 | h2 | h2 <;>
      (subst h2; simp)

theorem normParts_append : ∀ (l : List (List Char)) (i : Nat) (x : List Char),
    normParts i (l ++ [x]) = normParts i l ++ [normSeg (i + l.length) x] := by
  intro l
  induction l with
  | nil => intro i x; simp [normParts]
  | cons p l ih =>
    intro i x
    show normSeg i p :: normParts (i + 1) (l ++ [x])
      = normSeg i p :: normParts (i + 1) l ++ [normSeg (i + (l.length + 1)) x]
    rw [ih (i + 1) x]
    have : i + 1 + l.length = i + (l.length + 1) := by omega
    rw [this]
    rfl

theorem normParts_stable : ∀ (l : List (List Char)) (i : Nat),
    (∀ p ∈ l, detectPat p = none) → normParts i l = l := by
  intro l
  induction l with
  | nil => intro i _; rfl
  | cons p l ih =>
    intro i h
    show normSeg i p :: normParts (i + 1) l = p :: l
    rw [ih (i + 1) (fun q hq => h q (by simp [hq]))]
    unfold normSeg
    rw [h p (by simp)]

theorem normParts_all_none : ∀ (l : List (List Char)) (i : Nat) (q : List Char),
    q ∈ normParts i l → detectPat q = none := by
  intro l
  induction l with
  | nil => intro i q hq; cases hq
  | cons p l ih =>
    intro i q hq
    rcases List.mem_cons.mp hq with h | h
    · rw [h]; exact normSeg_detect_none i p
    · exact ih (i + 1) q h

theorem normParts_dotFree : ∀ (l : List (List Char)) (i : Nat),
    (∀ p ∈ l, ∀ c ∈ p, ¬ c = '.') →
      ∀ q ∈ normParts i l, ∀ c ∈ q, ¬ c = '.' := by
  intro l
  induction l with
  | nil => intro i _ q hq; cases hq
  | cons p l ih =>
    intro i h q hq
    rcases List.mem_cons.mp hq with h1 | h1
    · rw [h1]; exact normSeg_dotFree (h p (by simp)) i
    · exact ih (i + 1) (fun r hr => h r (by simp [hr])) q h1

theorem normParts_ne_nil : ∀ (l : List (List Char)) (i : Nat),
    l ≠ [] → normParts i l ≠ [] := by
  intro l i h
  cases l with
  | nil => exact absurd rfl h
  | cons p l => simp [normParts]

/-! ### Structure of `_normalize_path` -/

theorem data_inj {a b : String} (h : a.data = b.data) : a = b := by
  rw [← mk_data a, ← mk_data b, h]

theorem normalizePath_data {p : String} (hp : ¬ p = "") :
    (normalizePath p).data = joinDot (normParts 0 (splitDot p.data)) := by
  unfold normalizePath
  rw [if_neg hp]

theorem normalizePath_empty_iff (p : String) : normalizePath p = "" ↔ p = "" := by
  constructor
  · intro h
    by_contra hp
    rw [eq_empty_iff_data, normalizePath_data hp] at h
    have hd : p.data ≠ [] := fun hc => hp ((eq_empty_iff_data p).mpr hc)
    obtain ⟨q0, rest, hqr⟩ := List.exists_cons_of_ne_nil (splitDot_ne_nil p.data)
    rw [hqr] at h
    cases rest with
    | nil =>
      have hq0 : q0 = p.data := by
        have := joinDot_splitDot p.data
        rw [hqr] at this
        exact this
      have : joinDot (normParts 0 [q0]) = normSeg 0 q0 := rfl
      rw [this] at h
      exact normSeg_ne_nil (hq0 ▸ hd) 0 h
    | cons q1 rest' =>
      have : joinDot (normParts 0 (q0 :: q1 :: rest'))
          = normSeg 0 q0 ++ '.' :: joinDot (normParts 1 (q1 :: rest')) := rfl
      rw [this] at h
      simp at h
  · intro h
    rw [h]
    rfl

theorem normalizePath_parts_none (p : String) :
    ∀ q ∈ splitDot (normalizePath p).data, detectPat q = none := by
  by_cases hp : p = ""
  · subst hp
    intro q hq
    have : splitDot (normalizePath "").data = [[]] := rfl
    rw [this] at hq
    simp at hq
    rw [hq]
    rfl
  · intro q hq
    rw [normalizePath_data hp] at hq
    have hsplit : splitDot (joinDot (normParts 0 (splitDot p.data)))
        = normParts 0 (splitDot p.data) := by
      apply splitDot_joinDot
      · exact normParts_ne_nil _ _ (splitDot_ne_nil p.data)
      · exact normParts_dotFree _ _ (splitDot_elements_dotFree p.data)
    rw [hsplit] at hq
    exact normParts_all_none _ _ q hq

theorem normalizePath_of_parts_none {s : String}
    (h : ∀ q ∈ splitDot s.data, detectPat q = none) : normalizePath s = s := by
  by_cases hs : s = ""
  · rw [hs]
    rfl
  · apply data_inj
    rw [normalizePath_data hs, normParts_stable _ _ h, joinDot_splitDot]

/-- Claim C9: `_normalize_path` is idempotent, and no segment it emits —
in particular no canonical date token — is itself parsed as a date on a
second pass. -/
theorem C9_normalize_idempotent :
    (∀ p : String, normalizePath (normalizePath p) = normalizePath p)
    ∧ (∀ (i : Nat) (p : List Char), detectPat (normSeg i p) = none) :=
  ⟨fun p => normalizePath_of_parts_none (normalizePath_parts_none p),
   normSeg_detect_none⟩

/-! ### Every string the detector accepts ends in a digit

Each of the ten formats ends with `%Y`, `%m` or `%d`, whose regexes all end
on a digit; since `strptime` demands full consumption, an accepted string's
last character is a digit.  Consequence: no path that ends with the array
marker `[]` is ever date-like. -/

theorem firstSome_mem {l : List α} {f : α → Option β} {b : β}
    (h : firstSome l f = some b) : ∃ a ∈ l, f a = some b := by
  induction l with
  | nil => cases h
  | cons a rest ih =>
    unfold firstSome at h
    cases hf : f a with
    | some b0 =>
      rw [hf] at h
      cases h
      exact ⟨a, by simp, hf⟩
    | none =>
      rw [hf] at h
      obtain ⟨a', ha', hfa'⟩ := ih h
      exact ⟨a', by simp [ha'], hfa'⟩

theorem isDigit_of_bounds {c : Char} (h1 : '0' ≤ c) (h2 : c ≤ '9') :
    c.isDigit = true := by
  simp [Char.isDigit]
  exact ⟨h1, h2⟩

theorem mem_ite_singleton {cond : Prop} [Decidable cond] {x v : α}
    (h : x ∈ if cond then [v] else []) : cond ∧ x = v := by
  split at h
  · next hc => exact ⟨hc, by simpa using h⟩
  · simp at h

theorem yParse_consume {y : Nat} :
    ∀ {cs rem : List Char}, yParse cs = some (y, rem) →
      ∃ pre d0, cs = pre ++ d0 :: rem ∧ d0.isDigit = true := by
  intro cs rem h
  match cs, h with
  | a :: b :: c :: d :: rest, h =>
    rw [show yParse (a :: b :: c :: d :: rest)
        = if a.isDigit && b.isDigit && c.isDigit && d.isDigit then
            some (1000 * dv a + 100 * dv b + 10 * dv c + dv d, rest)
          else none from rfl] at h
    split at h
    next hcond =>
      simp only [Option.some.injEq, Prod.mk.injEq] at h
      simp only [Bool.and_eq_true] at hcond
      exact ⟨[a, b, c], d, by simp [h.2], hcond.2⟩
    next => cases h

theorem mAlts_consume :
    ∀ {cs : List Char} {x : Nat × List Char}, x ∈ mAlts cs →
      ∃ pre d0, cs = pre ++ d0 :: x.2 ∧ d0.isDigit = true := by
  intro cs x h
  cases cs with
  | nil => exact absurd h (by simp [mAlts])
  | cons c1 t =>
    cases t with
    | nil =>
      have h' : x ∈ (if '1' ≤ c1 && c1 ≤ '9' then [(dv c1, ([] : List Char))] else []) := by
        simpa [mAlts] using h
      obtain ⟨hc, hx⟩ := mem_ite_singleton h'
      subst hx
      simp only [Bool.and_eq_true, decide_eq_true_eq] at hc
      exact ⟨[], c1, rfl, isDigit_of_bounds (le_trans (by decide) hc.1) hc.2⟩
    | cons c2 rest =>
      have h' : x ∈ ((if c1 = '1' && ('0' ≤ c2 && c2 ≤ '2') then [(10 + dv c2, rest)] else []) ++
          ((if c1 = '0' && ('1' ≤ c2 && c2 ≤ '9') then [(dv c2, rest)] else []) ++
           (if '1' ≤ c1 && c1 ≤ '9' then [(dv c1, c2 :: rest)] else []))) := by
        have h0 : x ∈ ((if c1 = '1' && ('0' ≤ c2 && c2 ≤ '2') then [(10 + dv c2, rest)] else []) ++
            (if c1 = '0' && ('1' ≤ c2 && c2 ≤ '9') then [(dv c2, rest)] else [])) ++
            (if '1' ≤ c1 && c1 ≤ '9' then [(dv c1, c2 :: rest)] else []) := h
        rwa [List.append_assoc] at h0
      rcases List.mem_append.mp h' with h1 | h1
      · obtain ⟨hc, hx⟩ := mem_ite_singleton h1
        subst hx
        simp only [Bool.and_eq_true, decide_eq_true_eq] at hc
        exact ⟨[c1], c2, rfl, isDigit_of_bounds hc.2.1 (le_trans hc.2.2 (by decide))⟩
      · rcases List.mem_append.mp h1 with h2 | h2
        · obtain ⟨hc, hx⟩ := mem_ite_singleton h2
          subst hx
          simp only [Bool.and_eq_true, decide_eq_true_eq] at hc
          exact ⟨[c1], c2, rfl, isDigit_of_bounds (le_trans (by decide) hc.2.1) hc.2.2⟩
        · obtain ⟨hc, hx⟩ := mem_ite_singleton h2
          subst hx
          simp only [Bool.and_eq_true, decide_eq_true_eq] at hc
          exact ⟨[], c1, rfl, isDigit_of_bounds (le_trans (by decide) hc.1) hc.2⟩

theorem dAlts_consume :
    ∀ {cs : List Char} {x : Nat × List Char}, x ∈ dAlts cs →
      ∃ pre d0, cs = pre ++ d0 :: x.2 ∧ d0.isDigit = true := by
  intro cs x h
  cases cs with
  | nil => exact absurd h (by simp [dAlts])
  | cons c1 t =>
    cases t with
    | nil =>
      have h' : x ∈ (if '1' ≤ c1 && c1 ≤ '9' then [(dv c1, ([] : List Char))] else []) := by
        simpa [dAlts] using h
      obtain ⟨hc, hx⟩ := mem_ite_singleton h'
      subst hx
      simp only [Bool.and_eq_true, decide_eq_true_eq] at hc
      exact ⟨[], c1, rfl, isDigit_of_bounds (le_trans (by decide) hc.1) hc.2⟩
    | cons c2 rest =>
      have h' : x ∈ ((if c1 = '3' && ('0' ≤ c2 && c2 ≤ '1') then [(30 + dv c2, rest)] else []) ++
          ((if ('1' ≤ c1 && c1 ≤ '2') && c2.isDigit then [(10 * dv c1 + dv c2, rest)] else []) ++
           ((if c1 = '0' && ('1' ≤ c2 && c2 ≤ '9') then [(dv c2, rest)] else []) ++
            (if '1' ≤ c1 && c1 ≤ '9' then [(dv c1, c2 :: rest)] else [])))) := by
        have h0 : x ∈ (((if c1 = '3' && ('0' ≤ c2 && c2 ≤ '1') then [(30 + dv c2, rest)] else []) ++
            (if ('1' ≤ c1 && c1 ≤ '2') && c2.isDigit then [(10 * dv c1 + dv c2, rest)] else []) ++
            (if c1 = '0' && ('1' ≤ c2 && c2 ≤ '9') then [(dv c2, rest)] else [])) ++
            (if '1' ≤ c1 && c1 ≤ '9' then [(dv c1, c2 :: rest)] else [])) := h
        rwa [List.append_assoc, List.append_assoc] at h0
      rcases List.mem_append.mp h' with h1 | h1
      · obtain ⟨hc, hx⟩ := mem_ite_singleton h1
        subst hx
        simp only [Bool.and_eq_true, decide_eq_true_eq] at hc
        exact ⟨[c1], c2, rfl, isDigit_of_bounds hc.2.1 (le_trans hc.2.2 (by decide))⟩
      · rcases List.mem_append.mp h1 with h2 | h2
        · obtain ⟨hc, hx⟩ := mem_ite_singleton h2
          subst hx
          simp only [Bool.and_eq_true, decide_eq_true_eq] at hc
          exact ⟨[c1], c2, rfl, hc.2⟩
        · rcases List.mem_append.mp h2 with h3 | h3
          · obtain ⟨hc, hx⟩ := mem_ite_singleton h3
            subst hx
            simp only [Bool.and_eq_true, decide_eq_true_eq] at hc
            exact ⟨[c1], c2, rfl, isDigit_of_bounds (le_trans (by decide) hc.2.1) hc.2.2⟩
          · obtain ⟨hc, hx⟩ := mem_ite_singleton h3
            subst hx
            simp only [Bool.and_eq_true, decide_eq_true_eq] at hc
            exact ⟨[], c1, rfl, isDigit_of_bounds (le_trans (by decide) hc.1) hc.2⟩

theorem stripCI_consume :
    ∀ {ps cs rem : List Char}, stripCI ps cs = some rem → ∃ pre, cs = pre ++ rem := by
  intro ps
  induction ps with
  | nil =>
    intro cs rem h
    unfold stripCI at h
    cases h
    exact ⟨[], rfl⟩
  | cons p ps ih =>
    intro cs rem h
    cases cs with
    | nil => cases h
    | cons c cs =>
      unfold stripCI at h
      split at h
      · obtain ⟨pre, hpre⟩ := ih h
        exact ⟨c :: pre, by rw [hpre]; rfl⟩
      · cases h

theorem bParse_consume {m : Nat} {cs rem : List Char}
    (h : bParse cs = some (m, rem)) : ∃ pre, cs = pre ++ rem := by
  unfold bParse at h
  obtain ⟨mn, _, hmn⟩ := firstSome_mem h
  cases hs : stripCI mn.2 cs with
  | none => rw [hs] at hmn; cases hmn
  | some rest =>
    rw [hs] at hmn
    simp only [Option.some.injEq, Prod.mk.injEq] at hmn
    rw [← hmn.2]
    exact stripCI_consume hs

theorem ws1_consume {cs rem : List Char} (h : ws1 cs = some rem) :
    ∃ pre, cs = pre ++ rem := by
  cases cs with
  | nil => cases h
  | cons c rest =>
    rw [show ws1 (c :: rest)
        = if isWs c then some (rest.dropWhile isWs) else none from rfl] at h
    split at h
    · cases h
      exact ⟨c :: rest.takeWhile isWs, by
        rw [List.cons_append, List.takeWhile_append_dropWhile]⟩
    · cases h

theorem sfx_trans {cs r s : List Char}
    (h1 : ∃ pre, cs = pre ++ r) (h2 : ∃ pre, r = pre ++ s) :
    ∃ pre, cs = pre ++ s := by
  obtain ⟨p1, hp1⟩ := h1
  obtain ⟨p2, hp2⟩ := h2
  exact ⟨p1 ++ p2, by rw [hp1, hp2, List.append_assoc]⟩

theorem sfx_cons_of {cs r : List Char} {c : Char}
    (h : ∃ pre, cs = pre ++ c :: r) : ∃ pre, cs = pre ++ r := by
  obtain ⟨p, hp⟩ := h
  exact ⟨p ++ [c], by simp [hp]⟩

theorem consume_to_sfx {cs rem : List Char}
    (h : ∃ pre d0, cs = pre ++ d0 :: rem ∧ d0.isDigit = true) :
    ∃ pre, cs = pre ++ rem := by
  obtain ⟨p, d0, hp, _⟩ := h
  exact sfx_cons_of ⟨p, hp⟩

theorem assemble {cs r rem : List Char}
    (hsfx : ∃ pre, cs = pre ++ r)
    (hlast : ∃ pre d0, r = pre ++ d0 :: rem ∧ d0.isDigit = true) :
    ∃ pre d0, cs = pre ++ d0 :: rem ∧ d0.isDigit = true := by
  obtain ⟨p1, h1⟩ := hsfx
  obtain ⟨p2, d0, h2, hd⟩ := hlast
  exact ⟨p1 ++ p2, d0, by rw [h1, h2, List.append_assoc], hd⟩

theorem matchYMDsep_last {sep : Char} {cs : List Char} {y m d : Nat} {rem : List Char}
    (h : matchYMDsep sep cs = some (y, m, d, rem)) :
    ∃ pre d0, cs = pre ++ d0 :: rem ∧ d0.isDigit = true := by
  unfold matchYMDsep at h
  split at h
  case h_2 => cases h
  case h_1 y' r1 hy =>
    split at h
    case h_2 => cases h
    case h_1 c r2 =>
      split at h
      case isFalse => cases h
      case isTrue hc =>
        obtain ⟨mr, hmr, hf⟩ := firstSome_mem h
        split at hf
        case h_2 => cases hf
        case h_1 c2 r4 hm2 =>
          split at hf
          case isFalse => cases hf
          case isTrue hc2 =>
            obtain ⟨dr, hdr, hg⟩ := firstSome_mem hf
            simp only [Option.some.injEq, Prod.mk.injEq] at hg
            have s2 : ∃ pre, cs = pre ++ r2 :=
              sfx_cons_of (consume_to_sfx (yParse_consume hy))
            have s3 : ∃ pre, r2 = pre ++ c2 :: r4 := by
              have s := consume_to_sfx (mAlts_consume hmr)
              rw [hm2] at s
              exact s
            rw [← hg.2.2.2]
            exact assemble (sfx_trans s2 (sfx_cons_of s3)) (dAlts_consume hdr)

theorem matchDMYsep_last {sep : Char} {cs : List Char} {y m d : Nat} {rem : List Char}
    (h : matchDMYsep sep cs = some (y, m, d, rem)) :
    ∃ pre d0, cs = pre ++ d0 :: rem ∧ d0.isDigit = true := by
  unfold matchDMYsep at h
  obtain ⟨dr, hdr, hf⟩ := firstSome_mem h
  split at hf
  case h_2 => cases hf
  case h_1 c r2 hd2 =>
    split at hf
    case isFalse => cases hf
    case isTrue hc =>
      obtain ⟨mr, hmr, hg⟩ := firstSome_mem hf
      split at hg
      case h_2 => cases hg
      case h_1 c2 r4 hm2 =>
        split at hg
        case isFalse => cases hg
        case isTrue hc2 =>
          split at hg
          case h_2 => cases hg
          case h_1 y' r5 hy =>
            simp only [Option.some.injEq, Prod.mk.injEq] at hg
            have s1 : ∃ pre, cs = pre ++ r2 := by
              have s := consume_to_sfx (dAlts_consume hdr)
              rw [hd2] at s
              exact sfx_cons_of s
            have s2 : ∃ pre, r2 = pre ++ r4 := by
              have s := consume_to_sfx (mAlts_consume hmr)
              rw [hm2] at s
              exact sfx_cons_of s
            rw [← hg.2.2.2]
            exact assemble (sfx_trans s1 s2) (yParse_consume hy)

theorem matchYMDglued_last {cs : List Char} {y m d : Nat} {rem : List Char}
    (h : matchYMDglued cs = some (y, m, d, rem)) :
    ∃ pre d0, cs = pre ++ d0 :: rem ∧ d0.isDigit = true := by
  unfold matchYMDglued at h
  split at h
  case h_2 => cases h
  case h_1 y' r1 hy =>
    obtain ⟨mr, hmr, hf⟩ := firstSome_mem h
    obtain ⟨dr, hdr, hg⟩ := firstSome_mem hf
    simp only [Option.some.injEq, Prod.mk.injEq] at hg
    have s1 : ∃ pre, cs = pre ++ mr.2 :=
      sfx_trans (consume_to_sfx (yParse_consume hy)) (consume_to_sfx (mAlts_consume hmr))
    rw [← hg.2.2.2]
    exact assemble s1 (dAlts_consume hdr)

theorem matchDMYglued_last {cs : List Char} {y m d : Nat} {rem : List Char}
    (h : matchDMYglued cs = some (y, m, d, rem)) :
    ∃ pre d0, cs = pre ++ d0 :: rem ∧ d0.isDigit = true := by
  unfold matchDMYglued at h
  obtain ⟨dr, hdr, hf⟩ := firstSome_mem h
  obtain ⟨mr, hmr, hg⟩ := firstSome_mem hf
  split at hg
  case h_2 => cases hg
  case h_1 y' r3 hy =>
    simp only [Option.some.injEq, Prod.mk.injEq] at hg
    have s1 : ∃ pre, cs = pre ++ mr.2 :=
      sfx_trans (consume_to_sfx (dAlts_consume hdr)) (consume_to_sfx (mAlts_consume hmr))
    rw [← hg.2.2.2]
    exact assemble s1 (yParse_consume hy)

theorem matchBDY_last {cs : List Char} {y m d : Nat} {rem : List Char}
    (h : matchBDY cs = some (y, m, d, rem)) :
    ∃ pre d0, cs = pre ++ d0 :: rem ∧ d0.isDigit = true := by
  unfold matchBDY at h
  split at h
  case h_2 => cases h
  case h_1 m' r1 hb =>
    split at h
    case h_2 => cases h
    case h_1 r2 hw =>
      obtain ⟨dr, hdr, hf⟩ := firstSome_mem h
      split at hf
      case h_2 => cases hf
      case h_1 r4 hd2 =>
        split at hf
        case h_2 => cases hf
        case h_1 r5 hw2 =>
          split at hf
          case h_2 => cases hf
          case h_1 y' r6 hy =>
            simp only [Option.some.injEq, Prod.mk.injEq] at hf
            have s1 : ∃ pre, cs = pre ++ r2 :=
              sfx_trans (bParse_consume hb) (ws1_consume hw)
            have s2 : ∃ pre, r2 = pre ++ r4 := by
              have s := consume_to_sfx (dAlts_consume hdr)
              rw [hd2] at s
              exact sfx_cons_of s
            have s3 : ∃ pre, r4 = pre ++ r5 := ws1_consume hw2
            rw [← hf.2.2.2]
            exact assemble (sfx_trans (sfx_trans s1 s2) s3) (yParse_consume hy)

theorem matchDBY_last {cs : List Char} {y m d : Nat} {rem : List Char}
    (h : matchDBY cs = some (y, m, d, rem)) :
    ∃ pre d0, cs = pre ++ d0 :: rem ∧ d0.isDigit = true := by
  unfold matchDBY at h
  obtain ⟨dr, hdr, hf⟩ := firstSome_mem h
  split at hf
  case h_2 => cases hf
  case h_1 r2 hw =>
    split at hf
    case h_2 => cases hf
    case h_1 m' r3 hb =>
      split at hf
      case h_2 => cases hf
      case h_1 r4 hw2 =>
        split at hf
        case h_2 => cases hf
        case h_1 y' r5 hy =>
          simp only [Option.some.injEq, Prod.mk.injEq] at hf
          have s1 : ∃ pre, cs = pre ++ r4 :=
            sfx_trans (sfx_trans (sfx_trans (consume_to_sfx (dAlts_consume hdr))
              (ws1_consume hw)) (bParse_consume hb)) (ws1_consume hw2)
          rw [← hf.2.2.2]
          exact assemble s1 (yParse_consume hy)

theorem matchYM_last {cs : List Char} {y m d : Nat} {rem : List Char}
    (h : matchYM cs = some (y, m, d, rem)) :
    ∃ pre d0, cs = pre ++ d0 :: rem ∧ d0.isDigit = true := by
  unfold matchYM at h
  split at h
  case h_2 => cases h
  case h_1 y' r1 hy =>
    split at h
    case h_2 => cases h
    case h_1 r2 =>
      obtain ⟨mr, hmr, hf⟩ := firstSome_mem h
      simp only [Option.some.injEq, Prod.mk.injEq] at hf
      have s1 : ∃ pre, cs = pre ++ r2 :=
        sfx_cons_of (consume_to_sfx (yParse_consume hy))
      rw [← hf.2.2.2]
      exact assemble s1 (mAlts_consume hmr)

theorem matchMY_last {cs : List Char} {y m d : Nat} {rem : List Char}
    (h : matchMY cs = some (y, m, d, rem)) :
    ∃ pre d0, cs = pre ++ d0 :: rem ∧ d0.isDigit = true := by
  unfold matchMY at h
  obtain ⟨mr, hmr, hf⟩ := firstSome_mem h
  split at hf
  case h_2 => cases hf
  case h_1 r2 hm2 =>
    split at hf
    case h_2 => cases hf
    case h_1 y' r3 hy =>
      simp only [Option.some.injEq, Prod.mk.injEq] at hf
      have s1 : ∃ pre, cs = pre ++ r2 := by
        have s := consume_to_sfx (mAlts_consume hmr)
        rw [hm2] at s
        exact sfx_cons_of s
      rw [← hf.2.2.2]
      exact assemble s1 (yParse_consume hy)

theorem okMatch_inv {r : DMatch} (h : okMatch r = true) :
    ∃ y m d, r = some (y, m, d, []) := by
  unfold okMatch at h
  split at h
  case h_1 y m d rem =>
    simp only [Bool.and_eq_true, List.isEmpty_iff] at h
    exact ⟨y, m, d, by rw [h.1]⟩
  case h_2 => cases h

theorem detect_last_digit {cs : List Char} {pat : String}
    (h : detectPat cs = some pat) :
    ∃ pre d0, cs = pre ++ [d0] ∧ d0.isDigit = true := by
  unfold detectPat at h
  split at h
  case isTrue hc =>
    obtain ⟨y, m, d, he⟩ := okMatch_inv hc
    exact matchYMDsep_last he
  split at h
  case isTrue hc =>
    obtain ⟨y, m, d, he⟩ := okMatch_inv hc
    exact matchDMYsep_last he
  split at h
  case isTrue hc =>
    obtain ⟨y, m, d, he⟩ := okMatch_inv hc
    exact matchYMDsep_last he
  split at h
  case isTrue hc =>
    obtain ⟨y, m, d, he⟩ := okMatch_inv hc
    exact matchDMYsep_last he
  split at h
  case isTrue hc =>
    obtain ⟨y, m, d, he⟩ := okMatch_inv hc
    exact matchYMDglued_last he
  split at h
  case isTrue hc =>
    obtain ⟨y, m, d, he⟩ := okMatch_inv hc
    exact matchDMYglued_last he
  split at h
  case isTrue hc =>
    obtain ⟨y, m, d, he⟩ := okMatch_inv hc
    exact matchBDY_last he
  split at h
  case isTrue hc =>
    obtain ⟨y, m, d, he⟩ := okMatch_inv hc
    exact matchDBY_last he
  split at h
  case isTrue hc =>
    obtain ⟨y, m, d, he⟩ := okMatch_inv hc
    exact matchYM_last he
  split at h
  case isTrue hc =>
    obtain ⟨y, m, d, he⟩ := okMatch_inv hc
    exact matchMY_last he
  case isFalse => cases h

theorem detect_append_brackets (q : List Char) :
    detectPat (q ++ ['[', ']']) = none := by
  cases h : detectPat (q ++ ['[', ']']) with
  | none => rfl
  | some pat =>
    exfalso
    obtain ⟨pre, d0, hq, hd⟩ := detect_last_digit h
    have h1 : (q ++ ['[', ']']).getLast? = some ']' := by
      rw [show q ++ ['[', ']'] = (q ++ ['[']) ++ [']'] by simp]
      exact List.getLast?_concat _
    rw [hq, List.getLast?_concat] at h1
    simp only [Option.some.injEq] at h1
    rw [h1] at hd
    exact absurd hd (by decide)

/-! ### Parents of registered paths -/

theorem endsWithMarker_shape (s : String) :
    endsWithMarker s
      = match s.data.reverse with
        | c1 :: c2 :: _ => c1 = ']' && c2 = '['
        | _ => false := rfl

theorem endsWithMarker_append_marker (s : String) :
    endsWithMarker (s ++ "[]") = true := by
  have h : (s ++ "[]").data.reverse = ']' :: '[' :: s.data.reverse := by
    rw [dataAppend]
    simp [show ("[]" : String).data = ['[', ']'] from rfl]
  rw [endsWithMarker_shape, h]
  rfl

theorem dropLast2_append_marker (s : String) : dropLast2 (s ++ "[]") = s := by
  unfold dropLast2
  rw [dataAppend]
  rw [show ("[]" : String).data = ['[', ']'] from rfl]
  rw [show s.data ++ ['[', ']'] = (s.data ++ ['[']) ++ [']'] by simp]
  rw [List.dropLast_concat, List.dropLast_concat, mk_data]

theorem parentPath_marker (s : String) : parentPath (s ++ "[]") = s := by
  unfold parentPath
  rw [if_pos (endsWithMarker_append_marker s)]
  exact dropLast2_append_marker s

theorem endsWithMarker_of_last_digit {l : List Char} {c : Char} {rest : List Char}
    (hrev : l.reverse = c :: rest) (hd : c.isDigit = true) :
    endsWithMarker (String.mk l) = false := by
  rw [endsWithMarker_shape, show (String.mk l).data = l from rfl, hrev]
  cases rest with
  | nil => rfl
  | cons c2 t =>
    have hc : ¬ c = ']' := by
      intro hcc
      rw [hcc] at hd
      exact absurd hd (by decide)
    simp [hc]

theorem childPath_data (p k : String) :
    (childPath p k).data = if p = "" then k.data else p.data ++ '.' :: k.data := by
  unfold childPath
  by_cases hp : p = ""
  · rw [if_pos hp, if_pos hp]
  · rw [if_neg hp, if_neg hp, dataAppend, dataAppend]
    simp [show ("." : String).data = ['.'] from rfl]

theorem endsWithMarker_childPath {seg : String} (p : String)
    (h : endsWithMarker seg = false) : endsWithMarker (childPath p seg) = false := by
  by_cases hp : p = ""
  · unfold childPath
    rw [if_pos hp]
    exact h
  · rw [endsWithMarker_shape, childPath_data, if_neg hp]
    have hrev : (p.data ++ '.' :: seg.data).reverse
        = seg.data.reverse ++ '.' :: p.data.reverse := by
      simp
    rw [hrev]
    rw [endsWithMarker_shape] at h
    cases hsr : seg.data.reverse with
    | nil =>
      cases hpr : p.data.reverse with
      | nil => rfl
      | cons c2 t => rfl
    | cons a t1 =>
      cases t1 with
      | nil =>
        show (a = ']' && '.' = '[') = false
        simp
      | cons b t2 =>
        rw [hsr] at h
        show (a = ']' && b = '[') = false
        exact h

theorem parentPath_childPath {seg : String} (p : String)
    (hs : ∀ c ∈ seg.data, ¬ c = '.') (hm : endsWithMarker seg = false) :
    parentPath (childPath p seg) = p := by
  unfold parentPath
  rw [if_neg (by rw [endsWithMarker_childPath p hm]; simp)]
  by_cases hp : p = ""
  · rw [childPath_data, if_pos hp, splitDot_dotFree hs, hp]
    rfl
  · rw [childPath_data, if_neg hp, splitDot_append_sep hs, List.dropLast_concat,
      joinDot_splitDot, mk_data]

/-! ### Normalization of the walker's child paths -/

theorem normalizePath_childPath (p k : String) (hk : ∀ c ∈ k.data, ¬ c = '.') :
    normalizePath (childPath p k)
      = childPath (normalizePath p) (String.mk (normSeg (depthOf p) k.data)) := by
  by_cases hp : p = ""
  · subst hp
    have hc : childPath "" k = k := by unfold childPath; rw [if_pos rfl]
    have hd : depthOf "" = 0 := rfl
    rw [hc, hd]
    show normalizePath k = String.mk (normSeg 0 k.data)
    by_cases hkE : k = ""
    · subst hkE
      rfl
    · apply data_inj
      rw [normalizePath_data hkE, splitDot_dotFree hk]
      rfl
  · have hcne : ¬ childPath p k = "" := by
      rw [eq_empty_iff_data, childPath_data, if_neg hp]
      simp
    have hnne : ¬ normalizePath p = "" :=
      fun h => hp ((normalizePath_empty_iff p).mp h)
    apply data_inj
    rw [normalizePath_data hcne, childPath_data, if_neg hp, splitDot_append_sep hk,
      normParts_append, joinDot_append_last _ _
        (normParts_ne_nil _ _ (splitDot_ne_nil p.data)),
      childPath_data, if_neg hnne, normalizePath_data hp]
    have hdep : depthOf p = (splitDot p.data).length := by
      unfold depthOf
      rw [if_neg hp]
    rw [hdep, Nat.zero_add, mk_data]

theorem normalizePath_marker_stable (p : String) :
    normalizePath (normalizePath p ++ "[]") = normalizePath p ++ "[]" := by
  apply normalizePath_of_parts_none
  intro q hq
  rw [dataAppend, show ("[]" : String).data = ['[', ']'] from rfl] at hq
  rcases List.eq_nil_or_concat (splitDot (normalizePath p).data) with hnil | ⟨init, last, hil⟩
  · exact absurd hnil (splitDot_ne_nil _)
  · rw [List.concat_eq_append] at hil
    rw [splitDot_extend_last (by decide) _ init last hil] at hq
    rcases List.mem_append.mp hq with h1 | h1
    · exact normalizePath_parts_none p q (by rw [hil]; exact List.mem_append_left _ h1)
    · rw [List.mem_singleton.mp h1]
      exact detect_append_brackets last

/-! ### Prefix-closure of the registry (claim C10) -/

theorem keysOf_mono_analyzeValue (path : String) (v : JVal) (st : Registry) :
    ∀ k ∈ keysOf st, k ∈ keysOf (analyzeValue path v st) := by
  intro k hk
  obtain ⟨e, he⟩ := lookupR_of_mem_keysOf hk
  obtain ⟨e', he', _⟩ := analyzeValue_extends path v st k e he
  exact mem_keysOf_of_lookupR he'

theorem mem_keysOf_regStep (np ty : String) (st : Registry) :
    np ∈ keysOf (regStep np ty st) := by
  obtain ⟨e, he⟩ := lookupR_regStep_self np ty st
  exact mem_keysOf_of_lookupR he

theorem prefixClosed_regStep {st : Registry} {np : String} (ty : String)
    (h : prefixClosed st) (hnp : np = "" ∨ parentPath np ∈ keysOf st) :
    prefixClosed (regStep np ty st) := by
  intro k hk hkne
  rcases keysOf_regStep np ty st with heq | heq
  · rw [heq] at hk ⊢
    exact h k hk hkne
  · rw [heq] at hk ⊢
    rcases List.mem_append.mp hk with h1 | h1
    · exact List.mem_append_left _ (h k h1 hkne)
    · rcases hnp with h2 | h2
      · exfalso
        apply hkne
        rw [List.mem_singleton.mp h1, h2]
      · rw [List.mem_singleton.mp h1]
        exact List.mem_append_left _ h2

theorem prefixClosed_addSample {st : Registry} (k' s : String)
    (h : prefixClosed st) : prefixClosed (addSample st k' s) := by
  intro k hk hkne
  rw [keysOf_addSample] at hk ⊢
  exact h k hk hkne

theorem normSeg_marker_false (k : String) (i : Nat)
    (hmark : endsWithMarker k = false) :
    endsWithMarker (String.mk (normSeg i k.data)) = false := by
  unfold normSeg
  cases h : detectPat k.data with
  | none =>
    rw [mk_data]
    exact hmark
  | some pat =>
    show endsWithMarker (String.mk (pat.data ++ '_' :: natRepr i)) = false
    obtain ⟨c, t, hct⟩ := List.exists_cons_of_ne_nil
      (fun hc => natRepr_ne_nil i (by
        have := congrArg List.reverse hc
        simpa using this) : (natRepr i).reverse ≠ [])
    have hcd : c.isDigit = true := by
      apply natRepr_digits i
      rw [← List.mem_reverse, hct]
      simp
    have hrev : (pat.data ++ '_' :: natRepr i).reverse
        = c :: (t ++ '_' :: pat.data.reverse) := by
      rw [show pat.data ++ '_' :: natRepr i = (pat.data ++ ['_']) ++ natRepr i by simp]
      rw [List.reverse_append, hct]
      simp
    exact endsWithMarker_of_last_digit hrev hcd

theorem walk_prefixClosed :
    ∀ (path : String) (v : JVal) (st : Registry),
      goodKeys v = true → prefixClosed st →
      (normalizePath path = "" ∨ parentPath (normalizePath path) ∈ keysOf st) →
      prefixClosed (analyzeValue path v st) := by
  refine analyzeValue.induct
    (fun path v st => goodKeys v = true → prefixClosed st →
      (normalizePath path = "" ∨ parentPath (normalizePath path) ∈ keysOf st) →
      prefixClosed (analyzeValue path v st))
    (fun path fs st => goodFields fs = true → prefixClosed st →
      normalizePath path ∈ keysOf st →
      prefixClosed (analyzeFields path fs st))
    ?_ ?_ ?_ ?_ ?_
  · intro path st np fs st1 st2 ih hg hpc hpar
    exact ih hg (prefixClosed_regStep _ hpc hpar) (mem_keysOf_regStep _ _ _)
  · intro path st np x tail st1 st2 ih hg hpc hpar
    have hgx : goodKeys x = true := by
      simp only [goodKeys, goodElems, Bool.and_eq_true] at hg
      exact hg.1
    apply ih hgx (prefixClosed_regStep _ hpc hpar)
    right
    rw [normalizePath_marker_stable path, parentPath_marker]
    exact mem_keysOf_regStep _ _ _
  · intro t path st hobj harr hg hpc hpar
    show prefixClosed (analyzeValue path t st)
    match t, hobj, harr with
    | .null, _, _ | .bool _, _, _ | .int _, _, _ | .float _, _, _ | .str _, _, _
    | .other _ _, _, _ =>
      exact prefixClosed_addSample _ _ (prefixClosed_regStep _ hpc hpar)
    | .arr [], _, _ => exact prefixClosed_regStep _ hpc hpar
    | .arr (x :: tail), _, harr => exact absurd rfl (harr x tail)
    | .obj fs, hobj, _ => exact absurd rfl (hobj fs)
  · intro path st _ hpc _
    exact hpc
  · intro path st k v rest ih1 ih2 hg hpc hmem
    have hg' := hg
    simp only [goodFields, Bool.and_eq_true, Bool.not_eq_true',
      decide_eq_false_iff_not] at hg'
    obtain ⟨⟨⟨hdot, hmark⟩, hgv⟩, hgrest⟩ := hg'
    have hkdf : ∀ c ∈ k.data, ¬ c = '.' := fun c hc hcc => hdot (hcc ▸ hc)
    apply ih2 hgrest
    · apply ih1 hgv hpc
      right
      rw [normalizePath_childPath path k hkdf]
      rw [parentPath_childPath (normalizePath path)
        (by rw [show (String.mk (normSeg (depthOf path) k.data)).data
              = normSeg (depthOf path) k.data from rfl]
            exact normSeg_dotFree hkdf _)
        (normSeg_marker_false k _ hmark)]
      exact hmem
    · exact keysOf_mono_analyzeValue _ _ _ _ hmem

/-- Claim C10: provided no object key in the document contains `.` or ends
with `[]`, the registry after a traversal is prefix-closed — the parent of
every registered non-empty normalized path (strip a trailing `[]`,
otherwise drop the last dot segment) is itself registered, both for a raw
root walk and for a full `analyze_json` run. -/
theorem C10_registry_prefix_closed :
    (∀ v : JVal, goodKeys v = true → prefixClosed (analyzeValue "" v []))
    ∧ (∀ (w : JVal) (reg : Registry), goodKeys w = true →
        analyzeJson w = some reg → prefixClosed reg) := by
  have hroot : ∀ v : JVal, goodKeys v = true → prefixClosed (analyzeValue "" v []) := by
    intro v hg
    apply walk_prefixClosed "" v [] hg
    · intro k hk
      cases hk
    · left
      rfl
  refine ⟨hroot, ?_⟩
  intro w reg hg hjson
  cases w with
  | arr xs =>
    cases xs with
    | nil =>
      cases hjson
      intro k hk
      cases hk
    | cons x rest =>
      cases hjson
      simp only [goodKeys, goodElems, Bool.and_eq_true] at hg
      exact hroot x hg.1
  | obj fs =>
    cases fs with
    | nil => cases hjson
    | cons p rest =>
      obtain ⟨pk, pv⟩ := p
      cases hjson
      have hg' := hg
      simp only [goodKeys, goodFields, Bool.and_eq_true] at hg'
      exact hroot pv hg'.1.2
  | null => cases hjson
  | bool b => cases hjson
  | int n => cases hjson
  | float r => cases hjson
  | str s => cases hjson
  | other t r => cases hjson

/-- Witness for C10: a concrete nested document with date keys and arrays. -/
theorem C10_registry_prefix_closed_witness :
    prefixClosed (analyzeValue ""
      (.obj [("matches", .obj [("2021-11-08", .arr [.int 3, .int 4])]),
             ("tags", .arr [.str "x"])]) []) :=
  C10_registry_prefix_closed.1
    (.obj [("matches", .obj [("2021-11-08", .arr [.int 3, .int 4])]),
           ("tags", .arr [.str "x"])]) (by decide)

/-! ### Date collapse (claim C5) -/

/-- Counterexample to claim C5 as stated: two distinct date-like segments at
the same depth under the same parent do not collapse to one normalized path
when different grammars parse them — the canonical token carries the
grammar. -/
theorem C5_counterexample_cross_grammar :
    (detectDatePattern "2021-11-08").1 = true
    ∧ (detectDatePattern "08-11-2021").1 = true
    ∧ normalizePath "matches.2021-11-08" ≠ normalizePath "matches.08-11-2021" := by
  refine ⟨by decide, by decide, by decide⟩

/-- Claim C5 (amended): a date-like segment is replaced by the canonical
token of the *first grammar that parses it*, suffixed with its depth; two
segments at the same depth under the same parent collapse to one normalized
path when the same grammar parses both (for example
`matches.2021-11-08` and `matches.2021-11-09`, whose collapsed entry
records type `integer`); the same date string at depth 0 and depth 1 yields
two different tokens; ambiguity is resolved by grammar priority
(`"20111102"` parses as both `%Y%m%d` and `%d%m%Y` and gets the earlier,
`yyyymmdd`); and a path none of whose segments is date-like passes through
unchanged. -/
theorem C5_date_collapse :
    (∀ (p s1 s2 : String) (pat : String),
      (∀ c ∈ s1.data, ¬ c = '.') → (∀ c ∈ s2.data, ¬ c = '.') →
      detectPat s1.data = some pat → detectPat s2.data = some pat →
      normalizePath (childPath p s1) = normalizePath (childPath p s2))
    ∧ (∀ (s pat : String), detectPat s.data = some pat →
        String.mk (normSeg 0 s.data) ≠ String.mk (normSeg 1 s.data))
    ∧ normalizePath "matches.2021-11-08" = "matches.yyyy-mm-dd_1"
    ∧ normalizePath "matches.2021-11-09" = "matches.yyyy-mm-dd_1"
    ∧ normalizePath "2021-11-08.2021-11-08" = "yyyy-mm-dd_0.yyyy-mm-dd_1"
    ∧ detectPat "20111102".data = some "yyyymmdd"
    ∧ okMatch (matchDMYglued "20111102".data) = true
    ∧ lookupR (analyzeValue "" (.obj [("matches",
        .obj [("2021-11-08", .int 3), ("2021-11-09", .int 5)])]) [])
        "matches.yyyy-mm-dd_1" = some ⟨"integer", ["3", "5"]⟩
    ∧ (∀ p : String, (∀ q ∈ splitDot p.data, detectPat q = none) →
        normalizePath p = p) := by
  refine ⟨?_, ?_, by decide, by decide, by decide, by decide, by decide, by decide,
    fun p h => normalizePath_of_parts_none h⟩
  · intro p s1 s2 pat h1 h2 hd1 hd2
    rw [normalizePath_childPath p s1 h1, normalizePath_childPath p s2 h2]
    have hseg : normSeg (depthOf p) s1.data = normSeg (depthOf p) s2.data := by
      unfold normSeg
      rw [hd1, hd2]
    rw [hseg]
  · intro s pat hd
    unfold normSeg
    rw [hd]
    intro heq
    have hdata := congrArg String.data heq
    simp only [show (String.mk (pat.data ++ '_' :: natRepr 0)).data
        = pat.data ++ '_' :: natRepr 0 from rfl,
      show (String.mk (pat.data ++ '_' :: natRepr 1)).data
        = pat.data ++ '_' :: natRepr 1 from rfl] at hdata
    have h01 := List.append_cancel_left hdata
    simp [show natRepr 0 = ['0'] from rfl, show natRepr 1 = ['1'] from rfl] at h01

/-- Witness for C5: the same-grammar collapse and pass-through parts at
concrete inputs. -/
theorem C5_date_collapse_witness :
    normalizePath (childPath "matches" "2021-11-08")
      = normalizePath (childPath "matches" "2021-11-09")
    ∧ String.mk (normSeg 0 "2021-11-08".data) ≠ String.mk (normSeg 1 "2021-11-08".data)
    ∧ normalizePath "user" = "user" :=
  ⟨C5_date_collapse.1 "matches" "2021-11-08" "2021-11-09" "yyyy-mm-dd"
      (by decide) (by decide) (by decide) (by decide),
   C5_date_collapse.2.1 "2021-11-08" "yyyy-mm-dd" (by decide),
   C5_date_collapse.2.2.2.2.2.2.2.2 "user" (by decide)⟩

/-! ### Top-level merge in the tree builder (claim C2) -/

theorem charsLt_cons (a : Char) (u v : List Char) :
    charsLt (a :: u) (a :: v) = charsLt u v := by
  show (if a < a then true else if a < a then false else charsLt u v) = charsLt u v
  rw [if_neg (lt_irrefl a), if_neg (lt_irrefl a)]

theorem buildNested_eq (reg : Registry) :
    buildNested reg = (sortByKey reg).foldl buildStep [] := rfl

theorem dUpdate_single_ne {b c : String} {n1 n2 : PyVal} (hbc : ¬ b = c) :
    dUpdate [(b, n1)] [(c, n2)] = [(b, n1), (c, n2)] := by
  show dSet [(b, n1)] c n2 = [(b, n1), (c, n2)]
  unfold dSet
  rw [if_neg hbc]
  rfl

theorem splitMk_two {b : String} (hbd : ∀ ch ∈ b.data, ¬ ch = '.') :
    (splitDot ("a." ++ b).data).map String.mk = ["a", b] := by
  rw [dataAppend, show ("a." : String).data = ['a', '.'] from rfl]
  rw [show ['a', '.'] ++ b.data = ['a'] ++ '.' :: b.data from rfl]
  rw [splitDot_cons_sep ['a'] (by decide) b.data, splitDot_dotFree hbd]
  simp [mk_data]

theorem createNested_two {b : String} (e : SEntry) (hbm : endsWithMarker b = false) :
    createNested ["a", b] e
      = [("a", .dict [("type", .s "object"),
          ("properties", .dict [(b, .dict (entryNode e))])])] := by
  show (if endsWithMarker "a" = true then _ else _) = _
  rw [if_neg (by decide)]
  show [("a", PyVal.dict [("type", PyVal.s "object"),
      ("properties", PyVal.dict (createNested [b] e))])] = _
  have hb : createNested [b] e = [(b, PyVal.dict (entryNode e))] := by
    show (if endsWithMarker b = true then _ else _) = _
    rw [if_neg (by rw [hbm]; simp)]
    rfl
  rw [hb]

/-- Claim C2 (amended): the builder unions `properties` at the top level of
the tree: for normalized paths `a.b` and `a.c` (with `b` and `c` distinct,
dot-free, marker-free segment names) the built tree holds exactly one
object node for `a` carrying both `b` and `c`.  (The counterexample theorem
shows that one level deeper the union degenerates to replacement.) -/
theorem C2_top_level_properties_union (b c : String) (e1 e2 : SEntry)
    (hbc : ¬ b = c) (hlt : charsLt b.data c.data = true)
    (hbm : endsWithMarker b = false) (hcm : endsWithMarker c = false)
    (hbd : ∀ ch ∈ b.data, ¬ ch = '.') (hcd : ∀ ch ∈ c.data, ¬ ch = '.') :
    buildNested [("", ⟨"object", []⟩), ("a", ⟨"object", []⟩),
                 ("a." ++ b, e1), ("a." ++ c, e2)]
      = [("a", .dict [("type", .s "object"),
          ("properties", .dict [(b, .dict (entryNode e1)),
                                (c, .dict (entryNode e2))])])] := by
  have hab_ne : ¬ ("a." ++ b) = "" := by
    rw [eq_empty_iff_data, dataAppend]
    simp
  have hac_ne : ¬ ("a." ++ c) = "" := by
    rw [eq_empty_iff_data, dataAppend]
    simp
  have hab_ac : charsLt ("a." ++ b).data ("a." ++ c).data = true := by
    rw [dataAppend, dataAppend, show ("a." : String).data = ['a', '.'] from rfl]
    rw [show ['a', '.'] ++ b.data = 'a' :: '.' :: b.data from rfl,
      show ['a', '.'] ++ c.data = 'a' :: '.' :: c.data from rfl,
      charsLt_cons, charsLt_cons]
    exact hlt
  have h_a_ab : charsLt ("a" : String).data ("a." ++ b).data = true := by
    rw [dataAppend, show ("a." : String).data = ['a', '.'] from rfl]
    rw [show ("a" : String).data = ['a'] from rfl,
      show ['a', '.'] ++ b.data = 'a' :: '.' :: b.data from rfl, charsLt_cons]
    rfl
  have hsorted : sortByKey [("", (⟨"object", []⟩ : SEntry)), ("a", ⟨"object", []⟩),
        ("a." ++ b, e1), ("a." ++ c, e2)]
      = [("", ⟨"object", []⟩), ("a", ⟨"object", []⟩),
         ("a." ++ b, e1), ("a." ++ c, e2)] := by
    show insertByKey ("", ⟨"object", []⟩) (insertByKey ("a", ⟨"object", []⟩)
        (insertByKey ("a." ++ b, e1) (insertByKey ("a." ++ c, e2) []))) = _
    rw [show insertByKey ("a." ++ c, e2) ([] : List (String × SEntry))
        = [("a." ++ c, e2)] from rfl]
    rw [show insertByKey ("a." ++ b, e1) [("a." ++ c, e2)]
        = [("a." ++ b, e1), ("a." ++ c, e2)] by unfold insertByKey; rw [if_pos hab_ac]]
    rw [show insertByKey ("a", ⟨"object", []⟩) [("a." ++ b, e1), ("a." ++ c, e2)]
        = [("a", ⟨"object", []⟩), ("a." ++ b, e1), ("a." ++ c, e2)] by
          unfold insertByKey; rw [if_pos h_a_ab]]
    unfold insertByKey
    rw [if_pos (by rfl : charsLt ("" : String).data ("a" : String).data = true)]
  rw [buildNested_eq, hsorted]
  rw [List.foldl_cons, List.foldl_cons, List.foldl_cons, List.foldl_cons, List.foldl_nil]
  rw [show buildStep [] ("", (⟨"object", []⟩ : SEntry)) = [] from rfl]
  rw [show buildStep [] ("a", (⟨"object", []⟩ : SEntry))
      = [("a", PyVal.dict [("type", PyVal.s "object")])] from rfl]
  rw [show buildStep [("a", PyVal.dict [("type", PyVal.s "object")])] ("a." ++ b, e1)
      = [("a", PyVal.dict [("type", PyVal.s "object"),
          ("properties", PyVal.dict [(b, PyVal.dict (entryNode e1))])])] by
    unfold buildStep
    rw [if_neg hab_ne, splitMk_two hbd, createNested_two e1 hbm]
    rfl]
  rw [show buildStep [("a", PyVal.dict [("type", PyVal.s "object"),
        ("properties", PyVal.dict [(b, PyVal.dict (entryNode e1))])])] ("a." ++ c, e2)
      = [("a", PyVal.dict [("type", PyVal.s "object"),
          ("properties", PyVal.dict
            (dUpdate [(b, PyVal.dict (entryNode e1))] [(c, PyVal.dict (entryNode e2))]))])] by
    unfold buildStep
    rw [if_neg hac_ne, splitMk_two hcd, createNested_two e2 hcm]
    rfl]
  rw [dUpdate_single_ne hbc]

/-- Witness for C2 (amended) at concrete segment names, matching the walk of
`{"a": {"b": 1, "c": 2}}`. -/
theorem C2_top_level_properties_union_witness :
    buildNested [("", ⟨"object", []⟩), ("a", ⟨"object", []⟩),
                 ("a." ++ "b", ⟨"integer", ["1"]⟩), ("a." ++ "c", ⟨"integer", ["2"]⟩)]
      = [("a", .dict [("type", .s "object"),
          ("properties", .dict
            [("b", .dict (entryNode ⟨"integer", ["1"]⟩)),
             ("c", .dict (entryNode ⟨"integer", ["2"]⟩))])])] :=
  C2_top_level_properties_union "b" "c" ⟨"integer", ["1"]⟩ ⟨"integer", ["2"]⟩
    (by decide) (by decide) (by decide) (by decide) (by decide) (by decide)

end Schema
